import Mathlib

/-!
Verification of the tree-diff / three-way-merge core (`src/lib/src/tree.rs`).

The Rust structures and functions are shallowly embedded as Lean
definitions.  Machine-level details kept faithful:

* the path component type (`repo_path.rs`, outside the core) is modelled
  as `Nat`; the spec only requires a decidable total order.
* The content store (`store.rs` / `store_wrapper.rs`, outside the core) is
  modelled from the spec (§6) as a record of fallible functions; stores are
  immutable environments and content-addressed writes are pure id
  computations.
* Rust `Result<_, StoreError>` is `Except StoreError _`; a call chain that
  additionally may `unwrap()` (panic) or recurse unboundedly is modelled by
  the richer outcome type `Res` below, with `Res.panicked` the image of a
  Rust panic (`unwrap`, `assert`, `panic!` as written in the source) and
  `Res.diverged` the fuel-exhaustion marker of the embedding.
* The lazy Rust iterators (`TreeEntriesIter`, `TreeDiffIterator`) are
  embedded as functions producing the full list of items they would yield,
  with the same emission order.
-/

namespace JJ

/-! ## Paths -/

/-- A single path segment (`Nat`) lives in `repo_path.rs`,
outside the core; the spec (§3) only requires a totally ordered component
type, modelled here as a bare `Nat` so that linear-arithmetic automation
applies to component comparisons. -/
def repoPathComponentIsNat : True := trivial

/-- A repository-relative path: a list of components from the root. -/
structure RepoPath where
  components : List Nat
deriving DecidableEq, Repr

/-- The repository root (`RepoPath::root()`). -/
def RepoPath.root : RepoPath := ⟨[]⟩

/-- Append one component (`RepoPath::join`). -/
def RepoPath.join (p : RepoPath) (c : Nat) : RepoPath :=
  ⟨p.components ++ [c]⟩

/-! ## Identifiers (opaque content hashes, byte strings in the source) -/

structure FileId where
  bytes : List Nat
deriving DecidableEq, Repr

structure SymlinkId where
  bytes : List Nat
deriving DecidableEq, Repr

structure TreeId where
  bytes : List Nat
deriving DecidableEq, Repr

structure ConflictId where
  bytes : List Nat
deriving DecidableEq, Repr

/-! ## Tree values, conflicts, stored trees -/

/-- `TreeValue` from `store.rs`: the value stored at one name of a tree. -/
inductive TreeValue where
  | normal (id : FileId) (executable : Bool)
  | symlink (id : SymlinkId)
  | tree (id : TreeId)
  | conflict (id : ConflictId)
deriving DecidableEq, Repr

/-- Whether a value is a sub-tree reference. -/
def TreeValue.isTreeRef : TreeValue → Bool
  | .tree _ => true
  | _ => false

/-- Whether a value is a conflict reference. -/
def TreeValue.isConflictRef : TreeValue → Bool
  | .conflict _ => true
  | _ => false

/-- `matches!(x, Some(TreeValue::Tree(_)))` on an optional value. -/
def TreeValue.optIsTreeRef : Option TreeValue → Bool
  | some (.tree _) => true
  | _ => false

/-- `ConflictPart` from `store.rs`. -/
structure ConflictPart where
  value : TreeValue
deriving DecidableEq, Repr

/-- `Conflict` from `store.rs`: the symbolic sum `Σ adds − Σ removes`. -/
structure Conflict where
  removes : List ConflictPart
  adds : List ConflictPart
deriving DecidableEq, Repr

/-- `store::Tree`: a name-to-value mapping iterated in ascending name order.
The entry list is the iteration order of the source's B-tree map; the
sortedness invariant is the separate predicate `StoreTree.Sorted`. -/
structure StoreTree where
  entries : List (Nat × TreeValue)
deriving DecidableEq, Repr

/-- Lookup of a name in an entry list (`store::Tree::value`). -/
def lookupValue : List (Nat × TreeValue) → Nat → Option TreeValue
  | [], _ => none
  | (n, v) :: rest, name => if n = name then some v else lookupValue rest name

/-- `store::Tree::value`. -/
def StoreTree.value (t : StoreTree) (name : Nat) : Option TreeValue :=
  lookupValue t.entries name

/-- Sorted insertion, the map semantics of `store::Tree::set`. -/
def insertEntry : List (Nat × TreeValue) → Nat → TreeValue →
    List (Nat × TreeValue)
  | [], name, v => [(name, v)]
  | (n, w) :: rest, name, v =>
    if name < n then (name, v) :: (n, w) :: rest
    else if name = n then (name, v) :: rest
    else (n, w) :: insertEntry rest name v

/-- `store::Tree::set`. -/
def StoreTree.set (t : StoreTree) (name : Nat) (v : TreeValue) : StoreTree :=
  ⟨insertEntry t.entries name v⟩

/-- Key removal, the map semantics of `store::Tree::remove`. -/
def removeEntry : List (Nat × TreeValue) → Nat →
    List (Nat × TreeValue)
  | [], _ => []
  | (n, w) :: rest, name => if n = name then rest else (n, w) :: removeEntry rest name

/-- `store::Tree::remove`. -/
def StoreTree.remove (t : StoreTree) (name : Nat) : StoreTree :=
  ⟨removeEntry t.entries name⟩

/-- The empty stored tree (`store::Tree::default()`). -/
def StoreTree.empty : StoreTree := ⟨[]⟩

/-- An entry list is in strictly ascending name order. -/
def EntriesSorted (l : List (Nat × TreeValue)) : Prop :=
  l.Pairwise (fun a b => a.1 < b.1)

/-- Entries are in strictly ascending name order (spec §3 invariant 1). -/
def StoreTree.Sorted (t : StoreTree) : Prop :=
  EntriesSorted t.entries

/-! ## The store environment

The store itself (`store.rs`, `store_wrapper.rs`) and the text three-way
merge (`files.rs`) are outside the core source.  Modelled from the spec:
§6 gives the store operations and their fallibility, §7 the error kinds.
A store is an immutable environment; content-addressed writes are pure
functions from content to id. -/

/-- Modelled from the spec: `StoreError` (§7), the error kinds surfaced by
the store (`store.rs` is not part of the core source). -/
inductive StoreError where
  | storeIo
  | notFound
  | corrupt
deriving DecidableEq, Repr

/-- Modelled from the spec: result of the external text three-way merge
(§6, `files::merge`); the conflict payload (hunks) is never inspected by
the core, so it is not carried. -/
inductive MergeResult where
  | resolved (content : List Nat)
  | conflictHunks
deriving DecidableEq, Repr

/-- Modelled from the spec: the abstract store (§6).  Reads and writes are
fallible; `mergeFileContents` is the external text merge `files::merge`. -/
structure StoreWrapper where
  getTreeData : TreeId → Except StoreError StoreTree
  readFile : RepoPath → FileId → Except StoreError (List Nat)
  writeFile : RepoPath → List Nat → Except StoreError FileId
  readConflict : ConflictId → Except StoreError Conflict
  writeConflict : Conflict → Except StoreError ConflictId
  writeTree : RepoPath → StoreTree → Except StoreError TreeId
  emptyTreeId : TreeId
  mergeFileContents : List Nat → List Nat → List Nat → MergeResult

/-! ## Outcomes

`Res` is the observable outcome of running a piece of the core: a value,
a returned `StoreError`, a Rust panic (`unwrap` / `assert` / `panic!`),
or non-termination (fuel exhaustion of the embedding). -/

deriving instance DecidableEq for Except

inductive Res (α : Type) where
  | ok (a : α)
  | err (e : StoreError)
  | panicked
  | diverged
deriving Repr, DecidableEq

def Res.bind {α β : Type} : Res α → (α → Res β) → Res β
  | .ok a, f => f a
  | .err e, _ => .err e
  | .panicked, _ => .panicked
  | .diverged, _ => .diverged

/-- Rust `?` on a store call: errors are returned to the caller. -/
def Res.liftExcept {α : Type} : Except StoreError α → Res α
  | .ok a => .ok a
  | .error e => .err e

/-- Rust `.unwrap()` on a store call: errors abort the process. -/
def Res.unwrapE {α : Type} : Except StoreError α → Res α
  | .ok a => .ok a
  | .error _ => .panicked

@[simp] theorem Res.bind_ok {α β : Type} (a : α) (f : α → Res β) : Res.bind (.ok a) f = f a := rfl
@[simp] theorem Res.bind_err {α β : Type} (e : StoreError) (f : α → Res β) :
    Res.bind (.err e) f = .err e := rfl
@[simp] theorem Res.bind_panicked {α β : Type} (f : α → Res β) :
    Res.bind .panicked f = .panicked := rfl
@[simp] theorem Res.bind_diverged {α β : Type} (f : α → Res β) :
    Res.bind .diverged f = .diverged := rfl
@[simp] theorem Res.liftExcept_ok {α : Type} (a : α) :
    Res.liftExcept (.ok a : Except StoreError α) = .ok a := rfl
@[simp] theorem Res.liftExcept_error {α : Type} (e : StoreError) :
    Res.liftExcept (.error e : Except StoreError α) = .err e := rfl
@[simp] theorem Res.unwrapE_ok {α : Type} (a : α) :
    Res.unwrapE (.ok a : Except StoreError α) = .ok a := rfl
@[simp] theorem Res.unwrapE_error {α : Type} (e : StoreError) :
    Res.unwrapE (.error e : Except StoreError α) = .panicked := rfl

/-- Inversion of a successful bind. -/
theorem Res.bind_eq_ok {α β : Type} {x : Res α} {f : α → Res β} {b : β}
    (h : Res.bind x f = .ok b) : ∃ a, x = .ok a ∧ f a = .ok b := by
  cases x with
  | ok a => exact ⟨a, rfl, h⟩
  | err e => simp [Res.bind] at h
  | panicked => simp [Res.bind] at h
  | diverged => simp [Res.bind] at h

/-! ## Tree views -/

/-- The `Tree` view of `tree.rs`: a directory, the tree's id, and the
hydrated stored data.  The shared store reference is passed separately. -/
structure Tree where
  dir : RepoPath
  id : TreeId
  data : StoreTree
deriving DecidableEq, Repr

/-- `Tree::null`: id is the empty byte string, data is empty. -/
def Tree.null (dir : RepoPath) : Tree :=
  ⟨dir, ⟨[]⟩, StoreTree.empty⟩

/-- `Tree::value`. -/
def Tree.value (t : Tree) (name : Nat) : Option TreeValue :=
  t.data.value name

/-- `StoreWrapper::get_tree`: hydrate a tree view at `dir`. -/
def StoreWrapper.getTree (s : StoreWrapper) (dir : RepoPath) (id : TreeId) :
    Except StoreError Tree :=
  match s.getTreeData id with
  | .ok data => .ok ⟨dir, id, data⟩
  | .error e => .error e

/-- `Tree::known_sub_tree`: hydrate a child tree whose id is known.  The
source unwraps the store result, so hydration failure panics. -/
def Tree.knownSubTree (s : StoreWrapper) (t : Tree) (name : Nat) (id : TreeId) :
    Res Tree :=
  Res.unwrapE (s.getTree (t.dir.join name) id)

/-- `Tree::sub_tree`: `None` for a missing or non-tree child, and a panic
(`unwrap`) when the store cannot hydrate the referenced sub-tree. -/
def Tree.subTree (s : StoreWrapper) (t : Tree) (name : Nat) : Res (Option Tree) :=
  match t.data.value name with
  | some (.tree id) => Res.bind (Res.unwrapE (s.getTree (t.dir.join name) id))
      (fun st => .ok (some st))
  | some _ => .ok none
  | none => .ok none

/-! ## The diff type -/

/-- `Diff<T>` from `tree.rs`. -/
inductive Diff (α : Type) where
  | modified (before after : α)
  | added (v : α)
  | removed (v : α)
deriving DecidableEq, Repr

/-- Swap the two sides of a diff (`Added ↔ Removed`, `Modified` flipped). -/
def Diff.invert {α : Type} : Diff α → Diff α
  | .modified b a => .modified a b
  | .added v => .removed v
  | .removed v => .added v

/-- A path matcher (`matchers.rs`, outside the core): `matches(path)`. -/
abbrev Matcher := RepoPath → Bool

/-- `EverythingMatcher`. -/
def everythingMatcher : Matcher := fun _ => true

/-! ## The paired non-recursive diff primitive

`TreeEntryDiffIterator::next` walks the two sorted entry lists with two
cursors.  The Rust struct also carries a matcher field that is never
consulted (`_matcher`), so it is not a parameter here. -/

/-- `TreeEntryDiffIterator`: the full yielded sequence of
`(component, before, after)` triples over two sorted entry lists. -/
def diffEntryLists : List (Nat × TreeValue) → List (Nat × TreeValue) →
    List (Nat × Option TreeValue × Option TreeValue)
  | [], [] => []
  | (n1, v1) :: r1, [] => (n1, some v1, none) :: diffEntryLists r1 []
  | [], (n2, v2) :: r2 => (n2, none, some v2) :: diffEntryLists [] r2
  | (n1, v1) :: r1, (n2, v2) :: r2 =>
    if n1 < n2 then
      (n1, some v1, none) :: diffEntryLists r1 ((n2, v2) :: r2)
    else if n2 < n1 then
      (n2, none, some v2) :: diffEntryLists ((n1, v1) :: r1) r2
    else if v1 ≠ v2 then
      (n1, some v1, some v2) :: diffEntryLists r1 r2
    else
      diffEntryLists r1 r2
termination_by l1 l2 => l1.length + l2.length

/-! ## Monadic list combinators

The lazy Rust iterators drain sub-iterators and concatenate their output;
the merge loop folds an accumulator over the paired diff.  These two
structural combinators express that. -/

/-- Concatenate the outputs of `f` over `l`, stopping at the first
non-`ok` outcome. -/
def resConcatMap {α β : Type} (f : α → Res (List β)) : List α → Res (List β)
  | [] => .ok []
  | a :: l =>
    Res.bind (f a) (fun b => Res.bind (resConcatMap f l) (fun bs => .ok (b ++ bs)))

/-- Fold an accumulator over `l`, stopping at the first non-`ok` outcome. -/
def resFoldl {σ α : Type} (f : σ → α → Res σ) : σ → List α → Res σ
  | acc, [] => .ok acc
  | acc, a :: l => Res.bind (f acc a) (fun acc' => resFoldl f acc' l)

/-! ## The recursive diff walker

`TreeDiffIterator` is a lazy iterator; `treeDiffAux` produces the full
list it yields, in emission order.  Per entry of the paired primitive:

* if either side is a sub-tree, a sub-walker runs at `dir.join name`
  (missing / non-tree side replaced by `Tree::null`);
* a file replaced by a directory emits `Removed(file)` before the
  sub-walker output (the Rust code returns it immediately after storing
  the sub-iterator);
* a directory replaced by a file emits `Added(file)` after the sub-walker
  output (the Rust `added_file` slot is flushed after the sub-iterator is
  drained);
* both sides non-tree: emit `Modified` / `Added` / `Removed`; the
  `(None, None)` arm is the Rust `panic!("unexpected diff")`.

Leaf emissions are guarded by the matcher; sub-walkers run regardless. -/

/-- The emissions of `TreeDiffIterator::next` for a single entry of the
paired primitive (including the drained sub-walker, in order).  `recur`
is the walker for the next depth. -/
def diffSegment (recur : RepoPath → Tree → Tree → Res (List (RepoPath × Diff TreeValue)))
    (s : StoreWrapper) (m : Matcher) (dir : RepoPath) (t1 t2 : Tree)
    (entry : Nat × Option TreeValue × Option TreeValue) :
    Res (List (RepoPath × Diff TreeValue)) :=
  let name := entry.1
  let before := entry.2.1
  let after := entry.2.2
  let tree_before := TreeValue.optIsTreeRef before
  let tree_after := TreeValue.optIsTreeRef after
  let subdir_path := dir.join name
  let file_path := dir.join name
  let subdiff : Res (List (RepoPath × Diff TreeValue)) :=
    if tree_before || tree_after then
      Res.bind (match before with
        | some (.tree id_before) => Tree.knownSubTree s t1 name id_before
        | _ => .ok (Tree.null subdir_path)) (fun before_tree =>
      Res.bind (match after with
        | some (.tree id_after) => Tree.knownSubTree s t2 name id_after
        | _ => .ok (Tree.null subdir_path)) (fun after_tree =>
      recur subdir_path before_tree after_tree))
    else .ok []
  Res.bind subdiff (fun sub =>
    if m file_path then
      if !tree_before && tree_after then
        match before with
        | some file_before => .ok ((file_path, Diff.removed file_before) :: sub)
        | none => .ok sub
      else if tree_before && !tree_after then
        match after with
        | some file_after => .ok (sub ++ [(file_path, Diff.added file_after)])
        | none => .ok sub
      else if !tree_before && !tree_after then
        match before, after with
        | some file_before, some file_after =>
          .ok [(file_path, Diff.modified file_before file_after)]
        | none, some file_after => .ok [(file_path, Diff.added file_after)]
        | some file_before, none => .ok [(file_path, Diff.removed file_before)]
        | none, none => .panicked
      else
        .ok sub
    else
      .ok sub)

/-- `TreeDiffIterator`: all items yielded for the diff of `t1` and `t2`
at directory `dir`. -/
def treeDiffAux (s : StoreWrapper) (m : Matcher) : Nat → RepoPath → Tree → Tree →
    Res (List (RepoPath × Diff TreeValue))
  | 0, _, _, _ => .diverged
  | fuel + 1, dir, t1, t2 =>
    resConcatMap
      (diffSegment (fun d u1 u2 => treeDiffAux s m fuel d u1 u2) s m dir t1 t2)
      (diffEntryLists t1.data.entries t2.data.entries)

/-- `recursive_tree_diff`: the walk starts at `RepoPath::root()`. -/
def recursive_tree_diff (s : StoreWrapper) (m : Matcher) (fuel : Nat) (root1 root2 : Tree) :
    Res (List (RepoPath × Diff TreeValue)) :=
  treeDiffAux s m fuel RepoPath.root root1 root2

/-- `Tree::diff`. -/
def Tree.diff (s : StoreWrapper) (t other : Tree) (m : Matcher) (fuel : Nat) :
    Res (List (RepoPath × Diff TreeValue)) :=
  recursive_tree_diff s m fuel t other

/-! ## The recursive entries walker -/

/-- One entry of a directory frame of `TreeEntriesIter`: descend into a
sub-tree (hydrated by `known_sub_tree`, which panics on store failure) or
yield the leaf. -/
def entriesItem (recur : Tree → Res (List (RepoPath × TreeValue)))
    (s : StoreWrapper) (t : Tree) (entry : Nat × TreeValue) :
    Res (List (RepoPath × TreeValue)) :=
  match entry with
  | (name, .tree id) =>
    Res.bind (Tree.knownSubTree s t name id) (fun subtree => recur subtree)
  | (name, other) => .ok [(t.dir.join name, other)]

/-- `TreeEntriesIter`: all `(path, value)` items yielded for the non-tree
leaves under `t`, in pre-order. -/
def treeEntriesAux (s : StoreWrapper) : Nat → Tree → Res (List (RepoPath × TreeValue))
  | 0, _ => .diverged
  | fuel + 1, t =>
    resConcatMap (entriesItem (fun u => treeEntriesAux s fuel u) s t) t.data.entries

/-! ## Conflict simplification -/

/-- `conflict_part_to_conflict`: view one part as a conflict (a plain
value becomes a single positive part; a conflict reference is read from
the store). -/
def conflict_part_to_conflict (s : StoreWrapper) (part : ConflictPart) :
    Except StoreError Conflict :=
  match part.value with
  | .conflict id => s.readConflict id
  | other => .ok { removes := [], adds := [{ value := other }] }

/-- The first flattening loop of `simplify_conflict` (over `conflict.adds`):
returns the `(new_removes, new_adds)` contributions in push order. -/
def flattenAdds (s : StoreWrapper) : List ConflictPart →
    Except StoreError (List ConflictPart × List ConflictPart)
  | [] => .ok ([], [])
  | part :: rest =>
    match part.value with
    | .conflict _ =>
      match conflict_part_to_conflict s part with
      | .error e => .error e
      | .ok inner =>
        match flattenAdds s rest with
        | .error e => .error e
        | .ok (nr, na) => .ok (inner.removes ++ nr, inner.adds ++ na)
    | _ =>
      match flattenAdds s rest with
      | .error e => .error e
      | .ok (nr, na) => .ok (nr, part :: na)

/-- The second flattening loop of `simplify_conflict` (over
`conflict.removes`): a nested conflict expands with inverted sign. -/
def flattenRemoves (s : StoreWrapper) : List ConflictPart →
    Except StoreError (List ConflictPart × List ConflictPart)
  | [] => .ok ([], [])
  | part :: rest =>
    match part.value with
    | .conflict _ =>
      match conflict_part_to_conflict s part with
      | .error e => .error e
      | .ok inner =>
        match flattenRemoves s rest with
        | .error e => .error e
        | .ok (nr, na) => .ok (inner.adds ++ nr, inner.removes ++ na)
    | _ =>
      match flattenRemoves s rest with
      | .error e => .error e
      | .ok (nr, na) => .ok (part :: nr, na)

/-- Does some part of the list carry this value? -/
def containsValue : List ConflictPart → TreeValue → Bool
  | [], _ => false
  | p :: rest, v => p.value = v || containsValue rest v

/-- Remove the first part carrying this value (`Vec::remove` at the first
matching index). -/
def eraseFirstValue : List ConflictPart → TreeValue → List ConflictPart
  | [], _ => []
  | p :: rest, v => if p.value = v then rest else p :: eraseFirstValue rest v

/-- The cancellation sweep of `simplify_conflict`: each add, in order, is
paired with the first matching remove; both are deleted.  Returns the
surviving `(adds, removes)`. -/
def cancelSweep : List ConflictPart → List ConflictPart →
    List ConflictPart × List ConflictPart
  | [], removes => ([], removes)
  | a :: rest, removes =>
    if containsValue removes a.value then
      cancelSweep rest (eraseFirstValue removes a.value)
    else
      let (as', rs') := cancelSweep rest removes
      (a :: as', rs')

/-- `simplify_conflict`: flatten nested conflicts one level, cancel
matching add/remove pairs, then collapse trivial shapes (an empty add
list means the path is absent; a single add with no removes is the plain
value; anything else is written back as a conflict). -/
def simplify_conflict (s : StoreWrapper) (c : Conflict) :
    Except StoreError (Option TreeValue) :=
  match flattenAdds s c.adds with
  | .error e => .error e
  | .ok (nr1, na1) =>
    match flattenRemoves s c.removes with
    | .error e => .error e
    | .ok (nr2, na2) =>
      match cancelSweep (na1 ++ na2) (nr1 ++ nr2) with
      | ([], _) => .ok none
      | ([a], []) => .ok (some a.value)
      | (newAdds, newRemoves) =>
        match s.writeConflict { removes := newRemoves, adds := newAdds } with
        | .error e => .error e
        | .ok cid => .ok (some (.conflict cid))

/-! ## Three-way merge -/

/-- `merge_tree_value`: recurse on three sub-trees (`recurTrees` is
`merge_trees` at the same store); merge contents of three regular files
(with the three-way executable-bit resolution, whose final arm asserts
that the sides agree); anything else falls through to conflict
construction and simplification. -/
def merge_tree_value (recurTrees : Tree → Tree → Tree → Res TreeId)
    (s : StoreWrapper) (dir : RepoPath) (basename : Nat)
    (maybe_base maybe_side1 maybe_side2 : Option TreeValue) : Res (Option TreeValue) :=
  match maybe_base, maybe_side1, maybe_side2 with
  | some (.tree base), some (.tree side1), some (.tree side2) =>
    let subdir := dir.join basename
    Res.bind (Res.unwrapE (s.getTree subdir side1)) (fun t1 =>
    Res.bind (Res.unwrapE (s.getTree subdir base)) (fun tb =>
    Res.bind (Res.unwrapE (s.getTree subdir side2)) (fun t2 =>
    Res.bind (recurTrees t1 tb t2) (fun merged_tree_id =>
      .ok (if merged_tree_id = s.emptyTreeId then none
           else some (.tree merged_tree_id))))))
  | _, _, _ =>
    let maybe_merged : Res (Option TreeValue) :=
      match maybe_base, maybe_side1, maybe_side2 with
      | some (.normal base_id base_executable),
        some (.normal side1_id side1_executable),
        some (.normal side2_id side2_executable) =>
        Res.bind
          (if base_executable = side1_executable then .ok side2_executable
           else if base_executable = side2_executable then .ok side1_executable
           else if side1_executable = side2_executable then .ok side1_executable
           else .panicked)
          (fun executable =>
        Res.bind (Res.liftExcept (s.readFile (dir.join basename) base_id)) (fun base_content =>
        Res.bind (Res.liftExcept (s.readFile (dir.join basename) side1_id)) (fun side1_content =>
        Res.bind (Res.liftExcept (s.readFile (dir.join basename) side2_id)) (fun side2_content =>
          match s.mergeFileContents base_content side1_content side2_content with
          | .resolved merged_content =>
            Res.bind (Res.liftExcept (s.writeFile (dir.join basename) merged_content))
              (fun id => .ok (some (.normal id executable)))
          | .conflictHunks => .ok none))))
      | _, _, _ => .ok none
    Res.bind maybe_merged (fun mm =>
      match mm with
      | some merged => .ok (some merged)
      | none =>
        let conflict : Conflict :=
          { removes :=
              match maybe_base with
              | some base => [{ value := base }]
              | none => []
            adds :=
              (match maybe_side1 with
               | some side1 => [{ value := side1 }]
               | none => []) ++
              (match maybe_side2 with
               | some side2 => [{ value := side2 }]
               | none => []) }
        Res.liftExcept (simplify_conflict s conflict))

/-- One step of the structural merge loop of `merge_trees`: update the
working copy of side 1's data at the entry's basename. -/
def mergeOneEntry (recurTrees : Tree → Tree → Tree → Res TreeId)
    (s : StoreWrapper) (dir : RepoPath) (side1_tree : Tree) (new_tree : StoreTree)
    (entry : Nat × Option TreeValue × Option TreeValue) : Res StoreTree :=
  match entry with
  | (basename, maybe_base, maybe_side2) =>
    let maybe_side1 := side1_tree.value basename
    if maybe_side1 = maybe_base then
      -- side 1 is unchanged: use the value from side 2
      .ok (match maybe_side2 with
        | none => new_tree.remove basename
        | some side2 => new_tree.set basename side2)
    else if maybe_side1 = maybe_side2 then
      -- both sides changed in the same way: new_tree already has the value
      .ok new_tree
    else
      -- the two sides changed in different ways
      Res.bind (merge_tree_value recurTrees s dir basename maybe_base maybe_side1 maybe_side2)
        (fun new_value =>
          .ok (match new_value with
            | none => new_tree.remove basename
            | some value => new_tree.set basename value))

/-- `merge_trees`: fast paths on tree ids, then the structural merge of
the entries where base and side 2 differ (a fold starting from a copy of
side 1's data), then the store write.  The two
`assert_eq!(side_tree.dir(), dir)` checks panic on mismatch. -/
def merge_trees (s : StoreWrapper) : Nat → Tree → Tree → Tree → Res TreeId
  | 0, _, _, _ => .diverged
  | fuel + 1, side1_tree, base_tree, side2_tree =>
    if side1_tree.dir ≠ base_tree.dir then .panicked
    else if side2_tree.dir ≠ base_tree.dir then .panicked
    else if base_tree.id = side1_tree.id then .ok side2_tree.id
    else if base_tree.id = side2_tree.id ∨ side1_tree.id = side2_tree.id then .ok side1_tree.id
    else
      Res.bind
        (resFoldl
          (mergeOneEntry (fun u1 ub u2 => merge_trees s fuel u1 ub u2) s base_tree.dir side1_tree)
          side1_tree.data
          (diffEntryLists base_tree.data.entries side2_tree.data.entries))
        (fun new_tree => Res.liftExcept (s.writeTree base_tree.dir new_tree))

/-! ## Concrete example objects (used by witnesses and counterexamples) -/

/-- A plain file value. -/
def exValA : TreeValue := .normal ⟨[1]⟩ false

def exValB : TreeValue := .normal ⟨[2]⟩ false

def exValC : TreeValue := .normal ⟨[3]⟩ false

def exValR : TreeValue := .normal ⟨[4]⟩ false

def exValS : TreeValue := .normal ⟨[5]⟩ false

/-- A store on which every operation fails: merge fast paths and similar
store-free code paths are insensitive to it. -/
def dummyStore : StoreWrapper where
  getTreeData := fun _ => .error .notFound
  readFile := fun _ _ => .error .notFound
  writeFile := fun _ _ => .error .notFound
  readConflict := fun _ => .error .notFound
  writeConflict := fun _ => .error .notFound
  writeTree := fun _ _ => .error .notFound
  emptyTreeId := ⟨[0]⟩
  mergeFileContents := fun _ _ _ => .conflictHunks

/-- Tree views (empty data) with distinct ids at the root. -/
def exTree1 : Tree := ⟨RepoPath.root, ⟨[100]⟩, ⟨[]⟩⟩

def exTree2 : Tree := ⟨RepoPath.root, ⟨[101]⟩, ⟨[]⟩⟩

/-- The inner conflict `{−A +B +C}` of the rebase round trip. -/
def exInnerConflict : Conflict := { removes := [⟨exValA⟩], adds := [⟨exValB⟩, ⟨exValC⟩] }

/-- A store holding `exInnerConflict` at id `[9]`. -/
def exConflictStore : StoreWrapper :=
  { dummyStore with
    readConflict := fun id => if id = ⟨[9]⟩ then .ok exInnerConflict else .error .notFound }

/-- Stored data of a sub-tree holding one file `f`. -/
def exSubTreeData : StoreTree := ⟨[(1, .normal ⟨[11]⟩ false)]⟩

/-- A store hydrating the sub-tree id `[7]` and nothing else. -/
def exDiffStore : StoreWrapper :=
  { dummyStore with
    getTreeData := fun id => if id = ⟨[7]⟩ then .ok exSubTreeData else .error .notFound }

/-- Root view `{d → Tree [7]}`. -/
def exDirTree : Tree := ⟨RepoPath.root, ⟨[100]⟩, ⟨[(0, .tree ⟨[7]⟩)]⟩⟩

/-- Root view `{d → File [12]}`. -/
def exFileTree : Tree := ⟨RepoPath.root, ⟨[101]⟩, ⟨[(0, .normal ⟨[12]⟩ false)]⟩⟩

/-- Root view referencing a sub-tree id the store cannot hydrate. -/
def exBrokenTree : Tree := ⟨RepoPath.root, ⟨[102]⟩, ⟨[(0, .tree ⟨[8]⟩)]⟩⟩

/-! ## Claim C1: merge fast paths -/

/-- Claim C1: for trees with equal `dir`, if `base.id == side1.id` then
`merge_trees(side1, base, side2)` returns `side2.id`; otherwise, if
`base.id == side2.id` or `side1.id == side2.id`, it returns `side1.id`;
in particular `merge_trees(t, t, t) == t.id`. -/
theorem merge_trees_fast_paths :
    (∀ (s : StoreWrapper) (fuel : Nat) (side1 base side2 : Tree),
      side1.dir = base.dir → side2.dir = base.dir → base.id = side1.id →
      merge_trees s (fuel + 1) side1 base side2 = .ok side2.id) ∧
    (∀ (s : StoreWrapper) (fuel : Nat) (side1 base side2 : Tree),
      side1.dir = base.dir → side2.dir = base.dir → base.id ≠ side1.id →
      (base.id = side2.id ∨ side1.id = side2.id) →
      merge_trees s (fuel + 1) side1 base side2 = .ok side1.id) ∧
    (∀ (s : StoreWrapper) (fuel : Nat) (t : Tree),
      merge_trees s (fuel + 1) t t t = .ok t.id) := by
  refine ⟨?_, ?_, ?_⟩
  · intro s fuel side1 base side2 h1 h2 hid
    simp [merge_trees, h1, h2, hid]
  · intro s fuel side1 base side2 h1 h2 hne hor
    have hne' : ¬ base.id = side1.id := hne
    simp [merge_trees, h1, h2, hne', hor]
  · intro s fuel t
    simp [merge_trees]

/-- Witness for C1 at concrete trees and a concrete store. -/
theorem merge_trees_fast_paths_witness :
    merge_trees dummyStore 1 exTree1 exTree1 exTree2 = .ok exTree2.id ∧
    merge_trees dummyStore 1 exTree1 exTree2 exTree2 = .ok exTree1.id ∧
    merge_trees dummyStore 1 exTree1 exTree1 exTree1 = .ok exTree1.id :=
  ⟨merge_trees_fast_paths.1 dummyStore 0 exTree1 exTree1 exTree2 rfl rfl rfl,
   merge_trees_fast_paths.2.1 dummyStore 0 exTree1 exTree2 exTree2 rfl rfl
     (by simp [exTree1, exTree2]) (Or.inl rfl),
   merge_trees_fast_paths.2.2 dummyStore 0 exTree1⟩

/-! ## Claim C2: the rebase round trip cancels -/

/-- Claim C2: for tree values `A`, `B`, `C`, none of which is itself a
conflict reference, simplifying `{+A −B +{+B −A +C}}` (the inner conflict
read from the store) yields the plain value `C` — `Some(C)`, not a stored
conflict. -/
theorem simplify_rebase_round_trip (s : StoreWrapper) (A B C : TreeValue)
    (innerId : ConflictId)
    (hA : A.isConflictRef = false) (hB : B.isConflictRef = false)
    (hC : C.isConflictRef = false)
    (hread : s.readConflict innerId = .ok { removes := [⟨A⟩], adds := [⟨B⟩, ⟨C⟩] }) :
    simplify_conflict s { removes := [⟨B⟩], adds := [⟨A⟩, ⟨.conflict innerId⟩] } =
      .ok (some C) := by
  cases A <;> simp [TreeValue.isConflictRef] at hA <;>
    cases B <;> simp [TreeValue.isConflictRef] at hB <;>
      simp [simplify_conflict, flattenAdds, flattenRemoves, conflict_part_to_conflict,
        hread, cancelSweep, containsValue, eraseFirstValue]

/-- Witness for C2 at a concrete store and concrete values. -/
theorem simplify_rebase_round_trip_witness :
    simplify_conflict exConflictStore
        { removes := [⟨exValB⟩], adds := [⟨exValA⟩, ⟨.conflict ⟨[9]⟩⟩] } =
      .ok (some exValC) :=
  simplify_rebase_round_trip exConflictStore exValA exValB exValC ⟨[9]⟩
    rfl rfl rfl (by simp [exConflictStore, dummyStore, exInnerConflict])

/-! ## Claim C3: store failure during sub-tree hydration

The claim says hydration failures are surfaced as error values.  The
source calls `.unwrap()` on `store.get_tree(..)` in `Tree::sub_tree`,
`Tree::known_sub_tree`, and therefore in both recursive walkers: a
hydration failure aborts (panics), it is never returned as an error
value (`sub_tree` returns a plain `Option`, the walkers yield plain
items). -/

/-- Counterexample to C3 as stated: on a tree whose data references the
sub-tree id `[8]`, which the store cannot hydrate, `sub_tree`, the
recursive entries walker and the recursive diff walker all abort
(`Res.panicked`, the image of the Rust `unwrap` panic) instead of
returning an error value. -/
theorem sub_tree_hydration_panics_concrete :
    Tree.subTree exDiffStore exBrokenTree 0 = .panicked ∧
    treeEntriesAux exDiffStore 2 exBrokenTree = .panicked ∧
    treeDiffAux exDiffStore everythingMatcher 2 RepoPath.root exBrokenTree
        (Tree.null RepoPath.root) = .panicked := by
  refine ⟨?_, ?_, ?_⟩
  · simp +decide [Tree.subTree, exBrokenTree, exDiffStore, dummyStore, StoreWrapper.getTree,
      StoreTree.value, lookupValue]
  · simp +decide [treeEntriesAux, resConcatMap, entriesItem, exBrokenTree, exDiffStore,
      dummyStore, Tree.knownSubTree, StoreWrapper.getTree]
  · simp +decide [treeDiffAux, resConcatMap, diffSegment, diffEntryLists, exBrokenTree,
      exDiffStore, dummyStore, Tree.knownSubTree, StoreWrapper.getTree, Tree.null,
      StoreTree.empty, TreeValue.optIsTreeRef, everythingMatcher]

/-- Claim C3 (amended): when a tree's data references a sub-tree id that
the store cannot hydrate, `sub_tree` and `known_sub_tree` abort (panic
via `unwrap`) rather than returning the store error to the caller; the
recursive walkers, which hydrate through `known_sub_tree`, abort
likewise. -/
theorem sub_tree_hydration_aborts (s : StoreWrapper) (t : Tree)
    (name : Nat) (id : TreeId) (e : StoreError)
    (hval : t.data.value name = some (.tree id))
    (herr : s.getTreeData id = .error e) :
    Tree.subTree s t name = .panicked ∧
    Tree.knownSubTree s t name id = .panicked := by
  constructor
  · simp [Tree.subTree, hval, StoreWrapper.getTree, herr]
  · simp [Tree.knownSubTree, StoreWrapper.getTree, herr]

/-- Witness for the amended C3 at the concrete broken store. -/
theorem sub_tree_hydration_aborts_witness :
    Tree.subTree exDiffStore exBrokenTree 0 = .panicked ∧
    Tree.knownSubTree exDiffStore exBrokenTree 0 ⟨[8]⟩ = .panicked :=
  sub_tree_hydration_aborts exDiffStore exBrokenTree 0 ⟨[8]⟩ .notFound
    (by simp +decide [exBrokenTree, StoreTree.value, lookupValue])
    (by simp +decide [exDiffStore, dummyStore])

/-! ## Claim C7: executable-flag resolution for three regular files -/

/-- Claim C7: when base, side 1 and side 2 at a name are all regular
files, the merged executable flag is side 2's flag if base's equals
side 1's, else side 1's flag if base's equals side 2's, else their common
flag (the asserted third case, automatic for booleans), and this flag is
used in the result whenever the external content merge resolves. -/
theorem merge_executable_flag (recurTrees : Tree → Tree → Tree → Res TreeId)
    (s : StoreWrapper) (dir : RepoPath) (basename : Nat)
    (base_id side1_id side2_id fid : FileId) (bex ex1 ex2 : Bool)
    (bc s1c s2c mc : List Nat)
    (hrb : s.readFile (dir.join basename) base_id = .ok bc)
    (hr1 : s.readFile (dir.join basename) side1_id = .ok s1c)
    (hr2 : s.readFile (dir.join basename) side2_id = .ok s2c)
    (hm : s.mergeFileContents bc s1c s2c = .resolved mc)
    (hw : s.writeFile (dir.join basename) mc = .ok fid) :
    merge_tree_value recurTrees s dir basename
        (some (.normal base_id bex)) (some (.normal side1_id ex1))
        (some (.normal side2_id ex2)) =
      .ok (some (.normal fid (if bex = ex1 then ex2 else if bex = ex2 then ex1 else ex1))) := by
  cases bex <;> cases ex1 <;> cases ex2 <;>
    simp [merge_tree_value, hrb, hr1, hr2, hm, hw]

/-- A store with concrete file contents and a resolving external merge,
for the C7 witness. -/
def exMergeStore : StoreWrapper :=
  { dummyStore with
    readFile := fun _ id =>
      if id = ⟨[1]⟩ then .ok [65] else if id = ⟨[2]⟩ then .ok [66]
      else if id = ⟨[3]⟩ then .ok [67] else .error .notFound
    writeFile := fun _ content => if content = [68] then .ok ⟨[40]⟩ else .error .storeIo
    mergeFileContents := fun b c1 c2 =>
      if b = [65] ∧ c1 = [66] ∧ c2 = [67] then .resolved [68] else .conflictHunks }

/-- Witness for C7: base non-executable, side 1 executable, side 2
non-executable; the merged file keeps side 1's bit. -/
theorem merge_executable_flag_witness :
    merge_tree_value (fun _ _ _ => .panicked) exMergeStore RepoPath.root 0
        (some (.normal ⟨[1]⟩ false)) (some (.normal ⟨[2]⟩ true))
        (some (.normal ⟨[3]⟩ false)) =
      .ok (some (.normal ⟨[40]⟩ (if false = true then false
        else if false = false then true else true))) :=
  merge_executable_flag (fun _ _ _ => .panicked) exMergeStore RepoPath.root 0
    ⟨[1]⟩ ⟨[2]⟩ ⟨[3]⟩ ⟨[40]⟩ false true false [65] [66] [67] [68]
    (by simp [exMergeStore, dummyStore]) (by simp [exMergeStore, dummyStore])
    (by simp [exMergeStore, dummyStore]) (by simp [exMergeStore, dummyStore])
    (by simp [exMergeStore, dummyStore])

/-! ## Claim C8: the paired primitive never yields two absent sides -/

/-- Helper: the paired primitive never emits `(name, none, none)`. -/
theorem diffEntryLists_no_both_none (l1 l2 : List (Nat × TreeValue))
    (n : Nat) :
    (n, (none : Option TreeValue), (none : Option TreeValue)) ∉ diffEntryLists l1 l2 := by
  induction l1, l2 using diffEntryLists.induct <;>
    (simp_all [diffEntryLists]; try (split_ifs <;> first | (exfalso; omega) | simp_all))

/-- Helper: a bind does not panic when neither the action nor any
continuation of an `ok` result panics. -/
theorem Res.bind_ne_panicked {α β : Type} {x : Res α} {f : α → Res β}
    (h1 : x ≠ .panicked) (h2 : ∀ a, x = .ok a → f a ≠ .panicked) :
    Res.bind x f ≠ .panicked := by
  cases x with
  | ok a => exact h2 a rfl
  | err e => simp [Res.bind]
  | panicked => exact absurd rfl h1
  | diverged => simp [Res.bind]

/-- Helper: concatenation of non-panicking pieces does not panic. -/
theorem resConcatMap_ne_panicked {α β : Type} {f : α → Res (List β)} {l : List α}
    (h : ∀ a ∈ l, f a ≠ .panicked) : resConcatMap f l ≠ .panicked := by
  induction l with
  | nil => simp [resConcatMap]
  | cons a l ih =>
    simp only [resConcatMap]
    refine Res.bind_ne_panicked (h a (by simp)) ?_
    intro b _
    refine Res.bind_ne_panicked (ih ?_) ?_
    · intro x hx; exact h x (by simp [hx])
    · intro bs _; simp

/-- Helper: on a store that hydrates every id, `known_sub_tree` cannot
panic. -/
theorem knownSubTree_ne_panicked {s : StoreWrapper}
    (htotal : ∀ id, ∃ d, s.getTreeData id = .ok d) (t : Tree)
    (name : Nat) (id : TreeId) :
    Tree.knownSubTree s t name id ≠ .panicked := by
  obtain ⟨d, hd⟩ := htotal id
  simp [Tree.knownSubTree, StoreWrapper.getTree, hd]

/-- Helper: a segment over an entry with at least one present side does
not panic, given a total store and a non-panicking sub-walker. -/
theorem diffSegment_ne_panicked {s : StoreWrapper} {m : Matcher}
    {recur : RepoPath → Tree → Tree → Res (List (RepoPath × Diff TreeValue))}
    (htotal : ∀ id, ∃ d, s.getTreeData id = .ok d)
    (hrec : ∀ d u1 u2, recur d u1 u2 ≠ .panicked)
    (dir : RepoPath) (t1 t2 : Tree)
    (entry : Nat × Option TreeValue × Option TreeValue)
    (hnn : ¬(entry.2.1 = none ∧ entry.2.2 = none)) :
    diffSegment recur s m dir t1 t2 entry ≠ .panicked := by
  obtain ⟨name, before, after⟩ := entry
  simp only [diffSegment]
  refine Res.bind_ne_panicked ?_ ?_
  · split
    · refine Res.bind_ne_panicked ?_ ?_
      · split
        · exact knownSubTree_ne_panicked htotal _ _ _
        · simp
      · intro bt _
        refine Res.bind_ne_panicked ?_ ?_
        · split
          · exact knownSubTree_ne_panicked htotal _ _ _
          · simp
        · intro at' _
          exact hrec _ _ _
    · simp
  · intro sub _
    rcases before with _ | fb <;> rcases after with _ | fa
    · exact absurd ⟨rfl, rfl⟩ hnn
    all_goals (split_ifs <;> simp_all)

/-- Claim C8: the paired non-recursive diff primitive never yields a
triple whose two value sides are both absent; hence the recursive diff
walker's `(None, None)` arm — the only `panic!` in its `next` — is
unreachable: on a store that hydrates every id, the walker never
panics. -/
theorem paired_diff_never_both_absent :
    (∀ (l1 l2 : List (Nat × TreeValue)) (n : Nat),
      (n, (none : Option TreeValue), (none : Option TreeValue)) ∉ diffEntryLists l1 l2) ∧
    (∀ (s : StoreWrapper), (∀ id, ∃ d, s.getTreeData id = .ok d) →
      ∀ (m : Matcher) (fuel : Nat) (dir : RepoPath) (t1 t2 : Tree),
        treeDiffAux s m fuel dir t1 t2 ≠ .panicked) := by
  refine ⟨diffEntryLists_no_both_none, ?_⟩
  intro s htotal m fuel
  induction fuel with
  | zero => intro dir t1 t2; simp [treeDiffAux]
  | succ n ih =>
    intro dir t1 t2
    simp only [treeDiffAux]
    apply resConcatMap_ne_panicked
    intro e he
    refine diffSegment_ne_panicked htotal (fun d u1 u2 => ih d u1 u2) dir t1 t2 e ?_
    rintro ⟨h1, h2⟩
    obtain ⟨en, eb, ea⟩ := e
    simp only at h1 h2
    subst h1; subst h2
    exact diffEntryLists_no_both_none _ _ en he

/-- A store hydrating every id (to the empty tree), for the C8 witness. -/
def exTotalStore : StoreWrapper :=
  { dummyStore with getTreeData := fun _ => .ok ⟨[]⟩ }

/-- Witness for C8 at concrete entry lists, a concrete total store and
concrete trees. -/
theorem paired_diff_never_both_absent_witness :
    (((0 : Nat), (none : Option TreeValue), (none : Option TreeValue)) ∉
      diffEntryLists [(0, exValA)] [(0, exValB)]) ∧
    treeDiffAux exTotalStore everythingMatcher 2 RepoPath.root exDirTree exFileTree ≠
      .panicked :=
  ⟨paired_diff_never_both_absent.1 [(0, exValA)] [(0, exValB)] 0,
   paired_diff_never_both_absent.2 exTotalStore (fun _ => ⟨⟨[]⟩, rfl⟩)
     everythingMatcher 2 RepoPath.root exDirTree exFileTree⟩

/-! ## Properties of the paired primitive on sorted entry lists -/

/-- Helper: a name bounded away from every key is absent. -/
theorem lookupValue_eq_none {l : List (Nat × TreeValue)} {n : Nat}
    (h : ∀ e ∈ l, n ≠ e.1) : lookupValue l n = none := by
  induction l with
  | nil => rfl
  | cons e l ih =>
    simp only [lookupValue]
    rw [if_neg, ih]
    · intro x hx; exact h x (by simp [hx])
    · intro he; exact h e (by simp) he.symm

/-- The name of every yielded triple is a key of one of the inputs. -/
theorem diffEntryLists_names {l1 l2 : List (Nat × TreeValue)}
    {n : Nat} {b a : Option TreeValue} (hmem : (n, b, a) ∈ diffEntryLists l1 l2) :
    (∃ v, (n, v) ∈ l1) ∨ (∃ v, (n, v) ∈ l2) := by
  induction l1, l2 using diffEntryLists.induct with
  | case1 => simp [diffEntryLists] at hmem
  | case2 n1 v1 r1 ih =>
    rw [diffEntryLists] at hmem
    rcases List.mem_cons.mp hmem with h | h
    · simp only [Prod.mk.injEq] at h
      exact Or.inl ⟨v1, by simp [h.1]⟩
    · rcases ih h with ⟨v, hv⟩ | ⟨v, hv⟩
      · exact Or.inl ⟨v, by simp [hv]⟩
      · simp at hv
  | case3 n2 v2 r2 ih =>
    rw [diffEntryLists] at hmem
    rcases List.mem_cons.mp hmem with h | h
    · simp only [Prod.mk.injEq] at h
      exact Or.inr ⟨v2, by simp [h.1]⟩
    · rcases ih h with ⟨v, hv⟩ | ⟨v, hv⟩
      · simp at hv
      · exact Or.inr ⟨v, by simp [hv]⟩
  | case4 n1 v1 r1 n2 v2 r2 hlt ih =>
    rw [diffEntryLists, if_pos hlt] at hmem
    rcases List.mem_cons.mp hmem with h | h
    · simp only [Prod.mk.injEq] at h
      exact Or.inl ⟨v1, by simp [h.1]⟩
    · rcases ih h with ⟨v, hv⟩ | ⟨v, hv⟩
      · exact Or.inl ⟨v, by simp [hv]⟩
      · exact Or.inr ⟨v, hv⟩
  | case5 n1 v1 r1 n2 v2 r2 hnlt hlt ih =>
    rw [diffEntryLists, if_neg hnlt, if_pos hlt] at hmem
    rcases List.mem_cons.mp hmem with h | h
    · simp only [Prod.mk.injEq] at h
      exact Or.inr ⟨v2, by simp [h.1]⟩
    · rcases ih h with ⟨v, hv⟩ | ⟨v, hv⟩
      · exact Or.inl ⟨v, hv⟩
      · exact Or.inr ⟨v, by simp [hv]⟩
  | case6 n1 v1 r1 n2 v2 r2 hnlt hnlt2 hne ih =>
    rw [diffEntryLists, if_neg hnlt, if_neg hnlt2, if_pos hne] at hmem
    rcases List.mem_cons.mp hmem with h | h
    · simp only [Prod.mk.injEq] at h
      exact Or.inl ⟨v1, by simp [h.1]⟩
    · rcases ih h with ⟨v, hv⟩ | ⟨v, hv⟩
      · exact Or.inl ⟨v, by simp [hv]⟩
      · exact Or.inr ⟨v, by simp [hv]⟩
  | case7 n1 v1 r1 n2 v2 r2 hnlt hnlt2 heq ih =>
    rw [diffEntryLists, if_neg hnlt, if_neg hnlt2, if_neg heq] at hmem
    rcases ih hmem with ⟨v, hv⟩ | ⟨v, hv⟩
    · exact Or.inl ⟨v, by simp [hv]⟩
    · exact Or.inr ⟨v, by simp [hv]⟩

/-- Soundness of the paired primitive on sorted inputs: a yielded triple
is the pair of lookups at its name, and they differ. -/
theorem diffEntryLists_sound {l1 l2 : List (Nat × TreeValue)}
    (h1 : EntriesSorted l1) (h2 : EntriesSorted l2)
    {n : Nat} {b a : Option TreeValue} (hmem : (n, b, a) ∈ diffEntryLists l1 l2) :
    b = lookupValue l1 n ∧ a = lookupValue l2 n ∧ b ≠ a := by
  induction l1, l2 using diffEntryLists.induct with
  | case1 => simp [diffEntryLists] at hmem
  | case2 n1 v1 r1 ih =>
    obtain ⟨hb1, hr1⟩ := List.pairwise_cons.mp h1
    rw [diffEntryLists] at hmem
    rcases List.mem_cons.mp hmem with h | h
    · simp only [Prod.mk.injEq] at h
      obtain ⟨rfl, rfl, rfl⟩ := h
      simp [lookupValue]
    · have hn : ¬ n1 = n := by
        intro he; subst he
        rcases diffEntryLists_names h with ⟨v, hv⟩ | ⟨v, hv⟩
        · have := hb1 _ hv; omega
        · simp at hv
      have := ih hr1 List.Pairwise.nil h
      simpa [lookupValue, if_neg hn] using this
  | case3 n2 v2 r2 ih =>
    obtain ⟨hb2, hr2⟩ := List.pairwise_cons.mp h2
    rw [diffEntryLists] at hmem
    rcases List.mem_cons.mp hmem with h | h
    · simp only [Prod.mk.injEq] at h
      obtain ⟨rfl, rfl, rfl⟩ := h
      simp [lookupValue]
    · have hn : ¬ n2 = n := by
        intro he; subst he
        rcases diffEntryLists_names h with ⟨v, hv⟩ | ⟨v, hv⟩
        · simp at hv
        · have := hb2 _ hv; omega
      have := ih List.Pairwise.nil hr2 h
      simpa [lookupValue, if_neg hn] using this
  | case4 n1 v1 r1 n2 v2 r2 hlt ih =>
    obtain ⟨hb1, hr1⟩ := List.pairwise_cons.mp h1
    obtain ⟨hb2, hr2⟩ := List.pairwise_cons.mp h2
    rw [diffEntryLists, if_pos hlt] at hmem
    rcases List.mem_cons.mp hmem with h | h
    · simp only [Prod.mk.injEq] at h
      obtain ⟨rfl, rfl, rfl⟩ := h
      refine ⟨by simp [lookupValue], ?_, by simp⟩
      rw [lookupValue_eq_none]
      intro e he
      rcases List.mem_cons.mp he with rfl | he'
      · omega
      · have := hb2 _ he'; omega
    · have hn : ¬ n1 = n := by
        intro he; subst he
        rcases diffEntryLists_names h with ⟨v, hv⟩ | ⟨v, hv⟩
        · have := hb1 _ hv; omega
        · rcases List.mem_cons.mp hv with heq | hv'
          · simp only [Prod.mk.injEq] at heq; omega
          · have := hb2 _ hv'; omega
      have := ih hr1 h2 h
      simpa [lookupValue, if_neg hn] using this
  | case5 n1 v1 r1 n2 v2 r2 hnlt hlt ih =>
    obtain ⟨hb1, hr1⟩ := List.pairwise_cons.mp h1
    obtain ⟨hb2, hr2⟩ := List.pairwise_cons.mp h2
    rw [diffEntryLists, if_neg hnlt, if_pos hlt] at hmem
    rcases List.mem_cons.mp hmem with h | h
    · simp only [Prod.mk.injEq] at h
      obtain ⟨rfl, rfl, rfl⟩ := h
      refine ⟨?_, by simp [lookupValue], by simp⟩
      rw [lookupValue_eq_none]
      intro e he
      rcases List.mem_cons.mp he with rfl | he'
      · omega
      · have := hb1 _ he'; omega
    · have hn : ¬ n2 = n := by
        intro he; subst he
        rcases diffEntryLists_names h with ⟨v, hv⟩ | ⟨v, hv⟩
        · rcases List.mem_cons.mp hv with heq | hv'
          · simp only [Prod.mk.injEq] at heq; omega
          · have := hb1 _ hv'; omega
        · have := hb2 _ hv; omega
      have := ih h1 hr2 h
      simpa [lookupValue, if_neg hn] using this
  | case6 n1 v1 r1 n2 v2 r2 hnlt hnlt2 hne ih =>
    obtain ⟨hb1, hr1⟩ := List.pairwise_cons.mp h1
    obtain ⟨hb2, hr2⟩ := List.pairwise_cons.mp h2
    have heq12 : n1 = n2 := by omega
    subst heq12
    rw [diffEntryLists, if_neg hnlt, if_neg hnlt2, if_pos hne] at hmem
    rcases List.mem_cons.mp hmem with h | h
    · simp only [Prod.mk.injEq] at h
      obtain ⟨rfl, rfl, rfl⟩ := h
      simp only [lookupValue, if_pos rfl]
      exact ⟨rfl, rfl, by simpa using hne⟩
    · have hn : ¬ n1 = n := by
        intro he; subst he
        rcases diffEntryLists_names h with ⟨v, hv⟩ | ⟨v, hv⟩
        · have := hb1 _ hv; omega
        · have := hb2 _ hv; omega
      have := ih hr1 hr2 h
      simpa [lookupValue, if_neg hn] using this
  | case7 n1 v1 r1 n2 v2 r2 hnlt hnlt2 heq ih =>
    obtain ⟨hb1, hr1⟩ := List.pairwise_cons.mp h1
    obtain ⟨hb2, hr2⟩ := List.pairwise_cons.mp h2
    have heq12 : n1 = n2 := by omega
    subst heq12
    rw [diffEntryLists, if_neg hnlt, if_neg hnlt2, if_neg heq] at hmem
    have hn : ¬ n1 = n := by
      intro he; subst he
      rcases diffEntryLists_names hmem with ⟨v, hv⟩ | ⟨v, hv⟩
      · have := hb1 _ hv; omega
      · have := hb2 _ hv; omega
    have := ih hr1 hr2 hmem
    simpa [lookupValue, if_neg hn] using this

/-- Completeness of the paired primitive on sorted inputs: a name at
which the two lookups differ is yielded with exactly those lookups. -/
theorem diffEntryLists_complete {l1 l2 : List (Nat × TreeValue)}
    (h1 : EntriesSorted l1) (h2 : EntriesSorted l2)
    {n : Nat} (hne : lookupValue l1 n ≠ lookupValue l2 n) :
    (n, lookupValue l1 n, lookupValue l2 n) ∈ diffEntryLists l1 l2 := by
  induction l1, l2 using diffEntryLists.induct with
  | case1 => simp [lookupValue] at hne
  | case2 n1 v1 r1 ih =>
    obtain ⟨hb1, hr1⟩ := List.pairwise_cons.mp h1
    rw [diffEntryLists]
    by_cases hn : n = n1
    · subst hn
      simp only [lookupValue, if_pos rfl]
      exact List.mem_cons_self _ _
    · simp only [lookupValue, if_neg (Ne.symm hn)] at hne ⊢
      have := List.mem_cons_of_mem (n1, some v1, none)
        (ih hr1 List.Pairwise.nil (by simpa [lookupValue] using hne))
      simpa [lookupValue] using this
  | case3 n2 v2 r2 ih =>
    obtain ⟨hb2, hr2⟩ := List.pairwise_cons.mp h2
    rw [diffEntryLists]
    by_cases hn : n = n2
    · subst hn
      simp only [lookupValue, if_pos rfl]
      exact List.mem_cons_self _ _
    · simp only [lookupValue, if_neg (Ne.symm hn)] at hne ⊢
      have := List.mem_cons_of_mem (n2, none, some v2)
        (ih List.Pairwise.nil hr2 (by simpa [lookupValue] using hne))
      simpa [lookupValue] using this
  | case4 n1 v1 r1 n2 v2 r2 hlt ih =>
    obtain ⟨hb1, hr1⟩ := List.pairwise_cons.mp h1
    obtain ⟨hb2, hr2⟩ := List.pairwise_cons.mp h2
    rw [diffEntryLists, if_pos hlt]
    by_cases hn : n = n1
    · subst hn
      have hl2 : lookupValue ((n2, v2) :: r2) n = none := by
        rw [lookupValue_eq_none]
        intro e he
        rcases List.mem_cons.mp he with rfl | he'
        · omega
        · have := hb2 _ he'; omega
      rw [hl2]
      simp only [lookupValue, if_pos rfl]
      exact List.mem_cons_self _ _
    · simp only [lookupValue, if_neg (Ne.symm hn)] at hne ⊢
      have := List.mem_cons_of_mem (n1, some v1, none)
        (ih hr1 h2 (by simpa [lookupValue] using hne))
      simpa [lookupValue] using this
  | case5 n1 v1 r1 n2 v2 r2 hnlt hlt ih =>
    obtain ⟨hb1, hr1⟩ := List.pairwise_cons.mp h1
    obtain ⟨hb2, hr2⟩ := List.pairwise_cons.mp h2
    rw [diffEntryLists, if_neg hnlt, if_pos hlt]
    by_cases hn : n = n2
    · subst hn
      have hl1 : lookupValue ((n1, v1) :: r1) n = none := by
        rw [lookupValue_eq_none]
        intro e he
        rcases List.mem_cons.mp he with rfl | he'
        · omega
        · have := hb1 _ he'; omega
      rw [hl1]
      simp only [lookupValue, if_pos rfl]
      exact List.mem_cons_self _ _
    · simp only [lookupValue, if_neg (Ne.symm hn)] at hne ⊢
      have := List.mem_cons_of_mem (n2, none, some v2)
        (ih h1 hr2 (by simpa [lookupValue] using hne))
      simpa [lookupValue] using this
  | case6 n1 v1 r1 n2 v2 r2 hnlt hnlt2 hvne ih =>
    obtain ⟨hb1, hr1⟩ := List.pairwise_cons.mp h1
    obtain ⟨hb2, hr2⟩ := List.pairwise_cons.mp h2
    have heq12 : n1 = n2 := by omega
    subst heq12
    rw [diffEntryLists, if_neg hnlt, if_neg hnlt2, if_pos hvne]
    by_cases hn : n = n1
    · subst hn
      simp only [lookupValue, if_pos rfl]
      exact List.mem_cons_self _ _
    · simp only [lookupValue, if_neg (Ne.symm hn)] at hne ⊢
      have := List.mem_cons_of_mem (n1, some v1, some v2)
        (ih hr1 hr2 (by simpa [lookupValue] using hne))
      simpa [lookupValue] using this
  | case7 n1 v1 r1 n2 v2 r2 hnlt hnlt2 hveq ih =>
    obtain ⟨hb1, hr1⟩ := List.pairwise_cons.mp h1
    obtain ⟨hb2, hr2⟩ := List.pairwise_cons.mp h2
    have heq12 : n1 = n2 := by omega
    subst heq12
    have hveq' : v1 = v2 := by simpa using hveq
    subst hveq'
    rw [diffEntryLists, if_neg hnlt, if_neg hnlt2, if_neg (by simp)]
    by_cases hn : n = n1
    · subst hn
      simp [lookupValue] at hne
    · simp only [lookupValue, if_neg (Ne.symm hn)] at hne ⊢
      have := ih hr1 hr2 (by simpa [lookupValue] using hne)
      simpa [lookupValue] using this

/-- A lower bound on all keys of both inputs bounds every yielded name. -/
theorem diffEntryLists_head_bound {la lb : List (Nat × TreeValue)}
    {x : Nat × Option TreeValue × Option TreeValue} (hx : x ∈ diffEntryLists la lb)
    {c : Nat} (ha : ∀ e ∈ la, c < e.1) (hb : ∀ e ∈ lb, c < e.1) : c < x.1 := by
  obtain ⟨n, b, a⟩ := x
  rcases diffEntryLists_names hx with ⟨v, hv⟩ | ⟨v, hv⟩
  · exact ha _ hv
  · exact hb _ hv

/-- On sorted inputs, the yielded names are strictly ascending. -/
theorem diffEntryLists_sorted {l1 l2 : List (Nat × TreeValue)}
    (h1 : EntriesSorted l1) (h2 : EntriesSorted l2) :
    (diffEntryLists l1 l2).Pairwise (fun x y => x.1 < y.1) := by
  induction l1, l2 using diffEntryLists.induct with
  | case1 => simp [diffEntryLists]
  | case2 n1 v1 r1 ih =>
    obtain ⟨hb1, hr1⟩ := List.pairwise_cons.mp h1
    rw [diffEntryLists]
    refine List.pairwise_cons.mpr ⟨?_, ih hr1 List.Pairwise.nil⟩
    intro x hx
    exact diffEntryLists_head_bound hx hb1 (by simp)
  | case3 n2 v2 r2 ih =>
    obtain ⟨hb2, hr2⟩ := List.pairwise_cons.mp h2
    rw [diffEntryLists]
    refine List.pairwise_cons.mpr ⟨?_, ih List.Pairwise.nil hr2⟩
    intro x hx
    exact diffEntryLists_head_bound hx (by simp) hb2
  | case4 n1 v1 r1 n2 v2 r2 hlt ih =>
    obtain ⟨hb1, hr1⟩ := List.pairwise_cons.mp h1
    obtain ⟨hb2, hr2⟩ := List.pairwise_cons.mp h2
    rw [diffEntryLists, if_pos hlt]
    refine List.pairwise_cons.mpr ⟨?_, ih hr1 h2⟩
    intro x hx
    refine diffEntryLists_head_bound hx hb1 ?_
    intro e he
    rcases List.mem_cons.mp he with rfl | he'
    · omega
    · have := hb2 _ he'; omega
  | case5 n1 v1 r1 n2 v2 r2 hnlt hlt ih =>
    obtain ⟨hb1, hr1⟩ := List.pairwise_cons.mp h1
    obtain ⟨hb2, hr2⟩ := List.pairwise_cons.mp h2
    rw [diffEntryLists, if_neg hnlt, if_pos hlt]
    refine List.pairwise_cons.mpr ⟨?_, ih h1 hr2⟩
    intro x hx
    refine diffEntryLists_head_bound hx ?_ hb2
    intro e he
    rcases List.mem_cons.mp he with rfl | he'
    · omega
    · have := hb1 _ he'; omega
  | case6 n1 v1 r1 n2 v2 r2 hnlt hnlt2 hne ih =>
    obtain ⟨hb1, hr1⟩ := List.pairwise_cons.mp h1
    obtain ⟨hb2, hr2⟩ := List.pairwise_cons.mp h2
    have heq12 : n1 = n2 := by omega
    subst heq12
    rw [diffEntryLists, if_neg hnlt, if_neg hnlt2, if_pos hne]
    refine List.pairwise_cons.mpr ⟨?_, ih hr1 hr2⟩
    intro x hx
    exact diffEntryLists_head_bound hx hb1 hb2
  | case7 n1 v1 r1 n2 v2 r2 hnlt hnlt2 heq ih =>
    obtain ⟨hb1, hr1⟩ := List.pairwise_cons.mp h1
    obtain ⟨hb2, hr2⟩ := List.pairwise_cons.mp h2
    rw [diffEntryLists, if_neg hnlt, if_neg hnlt2, if_neg heq]
    exact ih hr1 hr2

/-! ## Claim C9: the merge loop is a frame for names where base and
side 2 agree -/

/-- Insertion at another name does not change a lookup. -/
theorem lookupValue_insertEntry_ne {l : List (Nat × TreeValue)} {name n : Nat}
    (h : n ≠ name) (v : TreeValue) :
    lookupValue (insertEntry l name v) n = lookupValue l n := by
  induction l with
  | nil => simp [insertEntry, lookupValue, if_neg (Ne.symm h)]
  | cons e l ih =>
    obtain ⟨m, w⟩ := e
    rw [insertEntry]
    split_ifs with hc1 hc2
    · rw [lookupValue, if_neg (Ne.symm h)]
    · subst hc2
      rw [lookupValue, if_neg (Ne.symm h), lookupValue, if_neg (Ne.symm h)]
    · rw [lookupValue, lookupValue]
      split_ifs with hm
      · rfl
      · exact ih

/-- Removal of another name does not change a lookup. -/
theorem lookupValue_removeEntry_ne {l : List (Nat × TreeValue)} {name n : Nat}
    (h : n ≠ name) :
    lookupValue (removeEntry l name) n = lookupValue l n := by
  induction l with
  | nil => rfl
  | cons e l ih =>
    obtain ⟨m, w⟩ := e
    rw [removeEntry]
    split_ifs with hc
    · subst hc
      rw [lookupValue, if_neg (Ne.symm h)]
    · rw [lookupValue, lookupValue]
      split_ifs with hm
      · rfl
      · exact ih

/-- The merge fold never touches a name absent from its entry list. -/
theorem mergeFold_frame {recurTrees : Tree → Tree → Tree → Res TreeId}
    {s : StoreWrapper} {dir : RepoPath} {side1_tree : Tree} {n : Nat}
    {entries : List (Nat × Option TreeValue × Option TreeValue)}
    (hnames : ∀ e ∈ entries, e.1 ≠ n) :
    ∀ {acc nt : StoreTree},
      resFoldl (mergeOneEntry recurTrees s dir side1_tree) acc entries = .ok nt →
      nt.value n = acc.value n := by
  induction entries with
  | nil =>
    intro acc nt hrun
    simp only [resFoldl] at hrun
    cases hrun
    rfl
  | cons e rest ih =>
    intro acc nt hrun
    obtain ⟨basename, maybe_base, maybe_side2⟩ := e
    have hbn : basename ≠ n :=
      hnames (basename, maybe_base, maybe_side2) (List.mem_cons_self _ _)
    have hrest : ∀ e ∈ rest, e.1 ≠ n := fun e he => hnames e (by simp [he])
    simp only [resFoldl, mergeOneEntry] at hrun
    have hstep : ∀ {acc' : StoreTree},
        StoreTree.value acc' n = StoreTree.value acc n →
        resFoldl (mergeOneEntry recurTrees s dir side1_tree) acc' rest = .ok nt →
        nt.value n = acc.value n := by
      intro acc' hv hrun'
      rw [ih hrest hrun', hv]
    split_ifs at hrun with hc1 hc2
    · cases maybe_side2 with
      | none =>
        exact hstep (by simp [StoreTree.value, StoreTree.remove,
          lookupValue_removeEntry_ne (Ne.symm hbn)]) hrun
      | some v2 =>
        exact hstep (by simp [StoreTree.value, StoreTree.set,
          lookupValue_insertEntry_ne (Ne.symm hbn)]) hrun
    · exact hstep rfl hrun
    · cases hmv : merge_tree_value recurTrees s dir basename maybe_base
          (side1_tree.value basename) maybe_side2 with
      | ok newv =>
        rw [hmv] at hrun
        simp only [Res.bind_ok] at hrun
        cases newv with
        | none =>
          exact hstep (by simp [StoreTree.value, StoreTree.remove,
            lookupValue_removeEntry_ne (Ne.symm hbn)]) hrun
        | some v =>
          exact hstep (by simp [StoreTree.value, StoreTree.set,
            lookupValue_insertEntry_ne (Ne.symm hbn)]) hrun
      | err e => rw [hmv] at hrun; simp [Res.bind] at hrun
      | panicked => rw [hmv] at hrun; simp [Res.bind] at hrun
      | diverged => rw [hmv] at hrun; simp [Res.bind] at hrun

/-- Claim C9: at every basename where base and side 2 hold equal values
(both present and equal, or both absent), the structural merge loop of
`merge_trees` leaves side 1's value unchanged in the produced tree data —
the loop never visits such names, because the paired primitive only
yields names where the two lookups differ. -/
theorem merge_frame_base_side2_agree (s : StoreWrapper) (fuel : Nat)
    (side1_tree base_tree side2_tree : Tree) (n : Nat) (nt : StoreTree)
    (hs1 : base_tree.data.Sorted) (hs2 : side2_tree.data.Sorted)
    (hagree : base_tree.data.value n = side2_tree.data.value n)
    (hrun : resFoldl
        (mergeOneEntry (fun u1 ub u2 => merge_trees s fuel u1 ub u2) s
          base_tree.dir side1_tree)
        side1_tree.data
        (diffEntryLists base_tree.data.entries side2_tree.data.entries) = .ok nt) :
    nt.value n = side1_tree.data.value n := by
  refine mergeFold_frame ?_ hrun
  intro e he hn
  obtain ⟨en, eb, ea⟩ := e
  obtain ⟨hb, ha, hne⟩ := diffEntryLists_sound hs1 hs2 he
  subst hn
  exact hne (by rw [hb, ha]; exact hagree)

/-- Base and side-2 views agreeing at basename 0 but differing at 1, for
the C9 witness. -/
def exC9Base : Tree := ⟨RepoPath.root, ⟨[110]⟩, ⟨[(0, exValA), (1, exValR)]⟩⟩

def exC9Side2 : Tree := ⟨RepoPath.root, ⟨[111]⟩, ⟨[(0, exValA), (1, exValS)]⟩⟩

def exC9Side1 : Tree := ⟨RepoPath.root, ⟨[112]⟩, ⟨[(0, exValB), (1, exValS)]⟩⟩

/-- Witness for C9: the merge loop over a non-empty paired diff keeps
side 1's value at the agreeing name 0. -/
theorem merge_frame_base_side2_agree_witness :
    StoreTree.value
        ⟨[(0, exValB), (1, exValS)]⟩ 0 = exC9Side1.data.value 0 :=
  merge_frame_base_side2_agree dummyStore 0 exC9Side1 exC9Base exC9Side2 0
    ⟨[(0, exValB), (1, exValS)]⟩
    (by simp [exC9Base, StoreTree.Sorted, EntriesSorted])
    (by simp [exC9Side2, StoreTree.Sorted, EntriesSorted])
    (by simp [exC9Base, exC9Side2, StoreTree.value, lookupValue])
    (by simp +decide [exC9Base, exC9Side2, exC9Side1, diffEntryLists, resFoldl,
      mergeOneEntry, Tree.value, StoreTree.value, lookupValue, exValA, exValR, exValS])

/-! ## Generic facts about the walker combinators -/

/-- Pointwise-equal segment functions produce equal walks. -/
theorem resConcatMap_congr {α β : Type} {f g : α → Res (List β)} {l : List α}
    (h : ∀ a ∈ l, f a = g a) : resConcatMap f l = resConcatMap g l := by
  induction l with
  | nil => rfl
  | cons a l ih =>
    simp only [resConcatMap]
    rw [h a (by simp), ih (fun x hx => h x (by simp [hx]))]

/-- Every item of a successful concatenated walk comes from a successful
segment of one of the inputs. -/
theorem resConcatMap_ok_mem {α β : Type} {f : α → Res (List β)} {l : List α}
    {out : List β} (hrun : resConcatMap f l = .ok out) {x : β} (hx : x ∈ out) :
    ∃ a ∈ l, ∃ o, f a = .ok o ∧ x ∈ o := by
  induction l generalizing out with
  | nil =>
    simp only [resConcatMap] at hrun
    cases hrun
    simp at hx
  | cons a l ih =>
    simp only [resConcatMap] at hrun
    cases hfa : f a with
    | ok o1 =>
      rw [hfa] at hrun
      simp only [Res.bind_ok] at hrun
      cases hrest : resConcatMap f l with
      | ok o2 =>
        rw [hrest] at hrun
        simp only [Res.bind_ok] at hrun
        cases hrun
        rcases List.mem_append.mp hx with h | h
        · exact ⟨a, by simp, o1, hfa, h⟩
        · obtain ⟨b, hb, o, ho, hxo⟩ := ih hrest h
          exact ⟨b, by simp [hb], o, ho, hxo⟩
      | err e => rw [hrest] at hrun; simp [Res.bind] at hrun
      | panicked => rw [hrest] at hrun; simp [Res.bind] at hrun
      | diverged => rw [hrest] at hrun; simp [Res.bind] at hrun
    | err e => rw [hfa] at hrun; simp [Res.bind] at hrun
    | panicked => rw [hfa] at hrun; simp [Res.bind] at hrun
    | diverged => rw [hfa] at hrun; simp [Res.bind] at hrun

/-- Associativity of `Res.bind`. -/
theorem Res.bind_assoc {α β γ : Type} (x : Res α) (f : α → Res β) (g : β → Res γ) :
    Res.bind (Res.bind x f) g = Res.bind x (fun a => Res.bind (f a) g) := by
  cases x <;> rfl

/-- A successful concatenated walk splits along a split of its input. -/
theorem resConcatMap_append {α β : Type} (f : α → Res (List β)) (l1 l2 : List α) :
    resConcatMap f (l1 ++ l2) =
      Res.bind (resConcatMap f l1) (fun o1 =>
        Res.bind (resConcatMap f l2) (fun o2 => .ok (o1 ++ o2))) := by
  induction l1 with
  | nil =>
    simp only [List.nil_append, resConcatMap]
    cases resConcatMap f l2 <;> rfl
  | cons a l1 ih =>
    simp only [List.cons_append, resConcatMap]
    cases f a with
    | ok b =>
      simp only [List.append_eq, Res.bind_ok, ih, Res.bind_assoc]
      cases hl1 : resConcatMap f l1 with
      | ok o1 =>
        simp only [Res.bind_ok]
        cases hl2 : resConcatMap f l2 with
        | ok o2 => simp [Res.bind, List.append_assoc]
        | err e => rfl
        | panicked => rfl
        | diverged => rfl
      | err e => rfl
      | panicked => rfl
      | diverged => rfl
    | err e => rfl
    | panicked => rfl
    | diverged => rfl

/-- Every item of a successful diff segment is either at the entry's own
path or comes from a successful sub-walk at that path. -/
theorem diffSegment_mem {recur : RepoPath → Tree → Tree → Res (List (RepoPath × Diff TreeValue))}
    {s : StoreWrapper} {m : Matcher} {dir : RepoPath} {t1 t2 : Tree}
    {name : Nat} {before after : Option TreeValue}
    {oe : List (RepoPath × Diff TreeValue)}
    (hseg : diffSegment recur s m dir t1 t2 (name, before, after) = .ok oe)
    {q : RepoPath} {d : Diff TreeValue} (hq : (q, d) ∈ oe) :
    q = dir.join name ∨
      ∃ u1 u2 so, recur (dir.join name) u1 u2 = .ok so ∧ (q, d) ∈ so := by
  simp only [diffSegment] at hseg
  obtain ⟨sub, hsd, hk⟩ := Res.bind_eq_ok hseg
  have hfrom : ∀ x ∈ sub,
      ∃ u1 u2 so, recur (dir.join name) u1 u2 = .ok so ∧ x ∈ so := by
    intro x hxs
    split at hsd
    · obtain ⟨u1, h1, hrest⟩ := Res.bind_eq_ok hsd
      obtain ⟨u2, h2, hrec⟩ := Res.bind_eq_ok hrest
      exact ⟨u1, u2, sub, hrec, hxs⟩
    · cases hsd
      simp at hxs
  clear hsd hseg
  rcases before with _ | fb <;> rcases after with _ | fa <;>
    simp only [TreeValue.optIsTreeRef, Bool.not_false, Bool.not_true, Bool.true_and,
      Bool.false_and, Bool.and_true, Bool.and_false, Bool.false_eq_true, if_false,
      if_true] at hk
  · -- (none, none)
    by_cases hm : m (dir.join name) = true
    · simp [hm] at hk
    · simp [hm] at hk
      subst hk
      exact Or.inr (hfrom _ hq)
  · -- (none, some fa)
    split_ifs at hk
    · cases hk
      exact Or.inr (hfrom _ hq)
    · cases hk
      have h := List.mem_singleton.mp hq
      simp only [Prod.mk.injEq] at h
      exact Or.inl h.1
    · cases hk
      exact Or.inr (hfrom _ hq)
    · cases hk
      exact Or.inr (hfrom _ hq)
  · -- (some fb, none)
    split_ifs at hk
    · cases hk
      exact Or.inr (hfrom _ hq)
    · cases hk
      have h := List.mem_singleton.mp hq
      simp only [Prod.mk.injEq] at h
      exact Or.inl h.1
    · cases hk
      exact Or.inr (hfrom _ hq)
    · cases hk
      exact Or.inr (hfrom _ hq)
  · -- (some fb, some fa)
    split_ifs at hk
    · cases hk
      rcases List.mem_cons.mp hq with h | h
      · simp only [Prod.mk.injEq] at h
        exact Or.inl h.1
      · exact Or.inr (hfrom _ h)
    · cases hk
      rcases List.mem_append.mp hq with h | h
      · exact Or.inr (hfrom _ h)
      · have h' := List.mem_singleton.mp h
        simp only [Prod.mk.injEq] at h'
        exact Or.inl h'.1
    · cases hk
      have h := List.mem_singleton.mp hq
      simp only [Prod.mk.injEq] at h
      exact Or.inl h.1
    · cases hk
      exact Or.inr (hfrom _ hq)
    · cases hk
      exact Or.inr (hfrom _ hq)

/-- Every path yielded by the diff walker strictly extends the walk
directory. -/
theorem treeDiffAux_prefix (s : StoreWrapper) (m : Matcher) :
    ∀ (fuel : Nat) (p : RepoPath) (t1 t2 : Tree) (out : List (RepoPath × Diff TreeValue)),
      treeDiffAux s m fuel p t1 t2 = .ok out →
      ∀ q dd, (q, dd) ∈ out → ∃ rest, rest ≠ [] ∧ q.components = p.components ++ rest := by
  intro fuel
  induction fuel with
  | zero =>
    intro p t1 t2 out h
    simp [treeDiffAux] at h
  | succ k ih =>
    intro p t1 t2 out hrun q dd hqd
    simp only [treeDiffAux] at hrun
    obtain ⟨e, _, oe, hoe, hmem⟩ := resConcatMap_ok_mem hrun hqd
    obtain ⟨name, b, a⟩ := e
    rcases diffSegment_mem hoe hmem with hq | ⟨u1, u2, so, hso, hin⟩
    · exact ⟨[name], by simp, by simp [hq, RepoPath.join]⟩
    · obtain ⟨rest', hne, hcomp⟩ := ih (p.join name) u1 u2 so hso q dd hin
      refine ⟨name :: rest', by simp, ?_⟩
      simp only [RepoPath.join] at hcomp
      simp [hcomp]

/-- The diff walker's output does not depend on the `dir` fields of the
tree views it is given (only on their ids and data): the hydrated
sub-views differ only in their own `dir` fields, which never reach the
yielded paths. -/
theorem treeDiffAux_content (s : StoreWrapper) (m : Matcher) :
    ∀ (fuel : Nat) (p : RepoPath) (t1 t2 t1' t2' : Tree),
      t1.id = t1'.id → t1.data = t1'.data → t2.id = t2'.id → t2.data = t2'.data →
      treeDiffAux s m fuel p t1 t2 = treeDiffAux s m fuel p t1' t2' := by
  intro fuel
  induction fuel with
  | zero => intros; rfl
  | succ k ih =>
    intro p t1 t2 t1' t2' hi1 hd1 hi2 hd2
    simp only [treeDiffAux]
    rw [hd1, hd2]
    apply resConcatMap_congr
    intro e _
    obtain ⟨name, b, a⟩ := e
    simp only [diffSegment]
    have hafter : ∀ (u1 u1' : Tree), u1.id = u1'.id → u1.data = u1'.data →
        Res.bind (match a with
          | some (.tree id_after) => Tree.knownSubTree s t2 name id_after
          | _ => .ok (Tree.null (p.join name)))
          (fun u2 => treeDiffAux s m k (p.join name) u1 u2) =
        Res.bind (match a with
          | some (.tree id_after) => Tree.knownSubTree s t2' name id_after
          | _ => .ok (Tree.null (p.join name)))
          (fun u2 => treeDiffAux s m k (p.join name) u1' u2) := by
      intro u1 u1' hu1i hu1d
      rcases a with _ | va
      · simp only [Res.bind_ok]
        exact ih _ u1 _ u1' _ hu1i hu1d rfl rfl
      · rcases va with ⟨fid, ex⟩ | ⟨sid⟩ | ⟨tid⟩ | ⟨cid⟩
        · simp only [Res.bind_ok]
          exact ih _ u1 _ u1' _ hu1i hu1d rfl rfl
        · simp only [Res.bind_ok]
          exact ih _ u1 _ u1' _ hu1i hu1d rfl rfl
        · simp only [Tree.knownSubTree, StoreWrapper.getTree]
          cases hg : s.getTreeData tid with
          | ok dta =>
            simp only [Res.unwrapE_ok, Res.bind_ok]
            exact ih _ u1 _ u1' _ hu1i hu1d rfl rfl
          | error e =>
            simp only [Res.unwrapE_error, Res.bind_panicked]
        · simp only [Res.bind_ok]
          exact ih _ u1 _ u1' _ hu1i hu1d rfl rfl
    have hsub :
        (if TreeValue.optIsTreeRef b || TreeValue.optIsTreeRef a then
          Res.bind (match b with
            | some (.tree id_before) => Tree.knownSubTree s t1 name id_before
            | _ => .ok (Tree.null (p.join name))) (fun before_tree =>
          Res.bind (match a with
            | some (.tree id_after) => Tree.knownSubTree s t2 name id_after
            | _ => .ok (Tree.null (p.join name))) (fun after_tree =>
          treeDiffAux s m k (p.join name) before_tree after_tree))
        else .ok []) =
        (if TreeValue.optIsTreeRef b || TreeValue.optIsTreeRef a then
          Res.bind (match b with
            | some (.tree id_before) => Tree.knownSubTree s t1' name id_before
            | _ => .ok (Tree.null (p.join name))) (fun before_tree =>
          Res.bind (match a with
            | some (.tree id_after) => Tree.knownSubTree s t2' name id_after
            | _ => .ok (Tree.null (p.join name))) (fun after_tree =>
          treeDiffAux s m k (p.join name) before_tree after_tree))
        else .ok []) := by
      split_ifs with hc
      · rcases b with _ | vb
        · simp only [Res.bind_ok]
          exact hafter _ _ rfl rfl
        · rcases vb with ⟨fid, ex⟩ | ⟨sid⟩ | ⟨tid⟩ | ⟨cid⟩
          · simp only [Res.bind_ok]
            exact hafter _ _ rfl rfl
          · simp only [Res.bind_ok]
            exact hafter _ _ rfl rfl
          · simp only [Tree.knownSubTree, StoreWrapper.getTree]
            cases hg : s.getTreeData tid with
            | ok dta =>
              simp only [Res.unwrapE_ok, Res.bind_ok]
              exact hafter _ _ rfl rfl
            | error e =>
              simp only [Res.unwrapE_error, Res.bind_panicked]
          · simp only [Res.bind_ok]
            exact hafter _ _ rfl rfl
      · rfl
    rw [hsub]

/-- Every path yielded by the entries walker strictly extends the view's
own directory. -/
theorem treeEntriesAux_prefix (s : StoreWrapper) :
    ∀ (fuel : Nat) (t : Tree) (out : List (RepoPath × TreeValue)),
      treeEntriesAux s fuel t = .ok out →
      ∀ q v, (q, v) ∈ out → ∃ rest, rest ≠ [] ∧ q.components = t.dir.components ++ rest := by
  intro fuel
  induction fuel with
  | zero =>
    intro t out h
    simp [treeEntriesAux] at h
  | succ k ih =>
    intro t out hrun q v hqv
    simp only [treeEntriesAux] at hrun
    obtain ⟨e, _, oe, hoe, hmem⟩ := resConcatMap_ok_mem hrun hqv
    obtain ⟨name, w⟩ := e
    rcases w with ⟨fid, ex⟩ | ⟨sid⟩ | ⟨tid⟩ | ⟨cid⟩ <;>
      simp only [entriesItem] at hoe
    case tree =>
      obtain ⟨sub, hks, hrec⟩ := Res.bind_eq_ok hoe
      have hdir : sub.dir = t.dir.join name := by
        simp only [Tree.knownSubTree, StoreWrapper.getTree] at hks
        cases hg : s.getTreeData tid with
        | ok dta => rw [hg] at hks; cases hks; rfl
        | error e => rw [hg] at hks; simp at hks
      obtain ⟨rest', hne, hcomp⟩ := ih sub oe hrec q v hmem
      refine ⟨name :: rest', by simp, ?_⟩
      rw [hdir] at hcomp
      simp only [RepoPath.join] at hcomp
      simp [hcomp]
    all_goals
      cases hoe
      rcases List.mem_singleton.mp hmem with h
      simp only [Prod.mk.injEq] at h
      exact ⟨[name], by simp, by simp [h.1, RepoPath.join]⟩

/-! ## Claim C10: diff paths start at the root, entries paths at the
tree's own directory -/

/-- Claim C10: `Tree::diff` (via `recursive_tree_diff`) builds yielded
paths from `RepoPath::root()`, not from the trees' own `dir`: its output
is invariant under the views' `dir` fields, so diffing two views rooted
at a non-root directory `d` yields paths that omit the prefix `d`.  The
entries walker, by contrast, prefixes every yielded path with the view's
`dir`. -/
theorem diff_paths_from_root_entries_from_dir :
    (∀ (s : StoreWrapper) (m : Matcher) (fuel : Nat) (d1 d2 : RepoPath)
        (i1 i2 : TreeId) (dt1 dt2 : StoreTree),
      Tree.diff s ⟨d1, i1, dt1⟩ ⟨d2, i2, dt2⟩ m fuel =
        Tree.diff s ⟨RepoPath.root, i1, dt1⟩ ⟨RepoPath.root, i2, dt2⟩ m fuel) ∧
    (∀ (s : StoreWrapper) (fuel : Nat) (t : Tree) (out : List (RepoPath × TreeValue)),
      treeEntriesAux s fuel t = .ok out →
      ∀ q v, (q, v) ∈ out →
        ∃ rest, rest ≠ [] ∧ q.components = t.dir.components ++ rest) := by
  constructor
  · intro s m fuel d1 d2 i1 i2 dt1 dt2
    simp only [Tree.diff, recursive_tree_diff]
    exact treeDiffAux_content s m fuel RepoPath.root _ _ _ _ rfl rfl rfl rfl
  · exact treeEntriesAux_prefix

/-- Witness for C10: a dir-relocated diff equals the root-rooted diff,
and the entries walk of `exDirTree` yields the path `[0, 1]`, which
extends the view's directory (the root). -/
theorem diff_paths_from_root_entries_from_dir_witness :
    (Tree.diff exDiffStore ⟨⟨[5]⟩, ⟨[100]⟩, ⟨[(0, .tree ⟨[7]⟩)]⟩⟩
        ⟨⟨[5]⟩, ⟨[101]⟩, ⟨[(0, exValB)]⟩⟩ everythingMatcher 2 =
      Tree.diff exDiffStore ⟨RepoPath.root, ⟨[100]⟩, ⟨[(0, .tree ⟨[7]⟩)]⟩⟩
        ⟨RepoPath.root, ⟨[101]⟩, ⟨[(0, exValB)]⟩⟩ everythingMatcher 2) ∧
    (∃ rest, rest ≠ [] ∧
      (⟨[0, 1]⟩ : RepoPath).components = exDirTree.dir.components ++ rest) :=
  ⟨diff_paths_from_root_entries_from_dir.1 exDiffStore everythingMatcher 2 ⟨[5]⟩ ⟨[5]⟩
      ⟨[100]⟩ ⟨[101]⟩ ⟨[(0, .tree ⟨[7]⟩)]⟩ ⟨[(0, exValB)]⟩,
   diff_paths_from_root_entries_from_dir.2 exDiffStore 2 exDirTree
      [(⟨[0, 1]⟩, .normal ⟨[11]⟩ false)]
      (by simp [treeEntriesAux, resConcatMap, entriesItem, Tree.knownSubTree,
        StoreWrapper.getTree, exDiffStore, dummyStore, exSubTreeData, exDirTree,
        RepoPath.root, RepoPath.join])
      ⟨[0, 1]⟩ (.normal ⟨[11]⟩ false) (by simp)⟩

/-! ## Claim C5: simplification idempotence

The flattening phase expands nested conflicts one level only: parts
spliced in from an inner conflict are not re-examined.  A conflict whose
inner conflict itself contains a conflict part therefore simplifies to a
stored conflict that still carries a conflict part, and simplifying that
result expands one more level — a different outcome.  Idempotence does
hold when the surviving parts carry no conflict references, because the
cancellation sweep is stable on its own output. -/

/-- Erasure yields a sublist. -/
theorem eraseFirstValue_sublist (l : List ConflictPart) (v : TreeValue) :
    (eraseFirstValue l v).Sublist l := by
  induction l with
  | nil => simp [eraseFirstValue]
  | cons p rest ih =>
    rw [eraseFirstValue]
    split_ifs with hv
    · exact List.sublist_cons_self p rest
    · exact List.Sublist.cons₂ p ih

/-- The surviving removes are a sublist of the input removes. -/
theorem cancelSweep_removes_sublist (adds removes : List ConflictPart) :
    (cancelSweep adds removes).2.Sublist removes := by
  induction adds generalizing removes with
  | nil => simp [cancelSweep]
  | cons a rest ih =>
    rw [cancelSweep]
    split_ifs with hc
    · exact (ih (eraseFirstValue removes a.value)).trans (eraseFirstValue_sublist _ _)
    · rcases hcr : cancelSweep rest removes with ⟨as', rs'⟩
      have := ih removes
      rw [hcr] at this
      simpa [hcr] using this

/-- Membership characterization of `containsValue`. -/
theorem containsValue_iff {l : List ConflictPart} {v : TreeValue} :
    containsValue l v = true ↔ ∃ p ∈ l, p.value = v := by
  induction l with
  | nil => simp [containsValue]
  | cons p rest ih =>
    rw [containsValue]
    simp only [Bool.or_eq_true, decide_eq_true_eq, ih, List.mem_cons]
    constructor
    · rintro (h | ⟨x, hx, hv⟩)
      · exact ⟨p, Or.inl rfl, h⟩
      · exact ⟨x, Or.inr hx, hv⟩
    · rintro ⟨x, (rfl | hx), hv⟩
      · exact Or.inl hv
      · exact Or.inr ⟨x, hx, hv⟩

/-- Containment is monotone along sublists. -/
theorem containsValue_mono {l' l : List ConflictPart} {v : TreeValue}
    (hs : l'.Sublist l) (h : containsValue l' v = true) : containsValue l v = true := by
  rw [containsValue_iff] at h ⊢
  obtain ⟨p, hp, hv⟩ := h
  exact ⟨p, hs.mem hp, hv⟩

/-- The cancellation sweep is stable on its own output: a surviving add
matched no remove current at its turn, hence none of the smaller final
remove set either. -/
theorem cancelSweep_self (adds removes : List ConflictPart) :
    cancelSweep (cancelSweep adds removes).1 (cancelSweep adds removes).2 =
      cancelSweep adds removes := by
  induction adds generalizing removes with
  | nil => simp [cancelSweep]
  | cons a rest ih =>
    rw [cancelSweep]
    split_ifs with hc
    · exact ih _
    · rcases hcr : cancelSweep rest removes with ⟨as', rs'⟩
      have hrs : rs'.Sublist removes := by
        have := cancelSweep_removes_sublist rest removes
        rw [hcr] at this
        exact this
      have hnc : ¬ containsValue rs' a.value = true :=
        fun h => hc (containsValue_mono hrs h)
      simp only
      rw [cancelSweep]
      rw [if_neg hnc]
      have hstable := ih removes
      rw [hcr] at hstable
      rw [hstable]

/-- Flattening is the identity on an add list without conflict parts. -/
theorem flattenAdds_no_conflict {s : StoreWrapper} {parts : List ConflictPart}
    (h : ∀ p ∈ parts, p.value.isConflictRef = false) :
    flattenAdds s parts = .ok ([], parts) := by
  induction parts with
  | nil => rfl
  | cons p rest ih =>
    have hp := h p (by simp)
    have hr : flattenAdds s rest = .ok ([], rest) :=
      ih (fun x hx => h x (by simp [hx]))
    rcases hv : p.value with ⟨fid, ex⟩ | ⟨sid⟩ | ⟨tid⟩ | ⟨cid⟩ <;>
      simp [flattenAdds, hv, hr] <;>
      simp [TreeValue.isConflictRef, hv] at hp

/-- Flattening is the identity on a remove list without conflict parts. -/
theorem flattenRemoves_no_conflict {s : StoreWrapper} {parts : List ConflictPart}
    (h : ∀ p ∈ parts, p.value.isConflictRef = false) :
    flattenRemoves s parts = .ok (parts, []) := by
  induction parts with
  | nil => rfl
  | cons p rest ih =>
    have hp := h p (by simp)
    have hr : flattenRemoves s rest = .ok (rest, []) :=
      ih (fun x hx => h x (by simp [hx]))
    rcases hv : p.value with ⟨fid, ex⟩ | ⟨sid⟩ | ⟨tid⟩ | ⟨cid⟩ <;>
      simp [flattenRemoves, hv, hr] <;>
      simp [TreeValue.isConflictRef, hv] at hp

/-- Claim C5 (amended): simplification is idempotent whenever the parts
surviving the first simplification carry no conflict references (in
particular whenever nesting is at most one level deep): re-simplifying
the stored result returns the same stored conflict. -/
theorem simplify_conflict_idempotent_no_nested (s : StoreWrapper) (c : Conflict)
    (nr1 na1 nr2 na2 nap nrp : List ConflictPart) (cid : ConflictId)
    (hfa : flattenAdds s c.adds = .ok (nr1, na1))
    (hfr : flattenRemoves s c.removes = .ok (nr2, na2))
    (hcs : cancelSweep (na1 ++ na2) (nr1 ++ nr2) = (nap, nrp))
    (hnca : ∀ p ∈ nap, p.value.isConflictRef = false)
    (hncr : ∀ p ∈ nrp, p.value.isConflictRef = false)
    (hshape : 2 ≤ nap.length ∨ (nap ≠ [] ∧ nrp ≠ []))
    (hw : s.writeConflict { removes := nrp, adds := nap } = .ok cid) :
    simplify_conflict s c = .ok (some (.conflict cid)) ∧
    simplify_conflict s { removes := nrp, adds := nap } = .ok (some (.conflict cid)) := by
  have hmatch : ∀ (x : List ConflictPart × List ConflictPart), x = (nap, nrp) →
      (match x with
        | ([], _) => (.ok none : Except StoreError (Option TreeValue))
        | ([a], []) => .ok (some a.value)
        | (newAdds, newRemoves) =>
          match s.writeConflict { removes := newRemoves, adds := newAdds } with
          | .error e => .error e
          | .ok cid2 => .ok (some (.conflict cid2))) = .ok (some (.conflict cid)) := by
    rintro x rfl
    rcases hna : nap with _ | ⟨a1, nb⟩
    · rcases hshape with h | ⟨h, _⟩
      · rw [hna] at h; simp at h
      · exact absurd hna h
    · rcases hnb : nb with _ | ⟨a2, nc⟩
      · rcases hshape with h | ⟨_, h⟩
        · rw [hna, hnb] at h; simp at h
        · rcases hnr : nrp with _ | ⟨r1, nd⟩
          · exact absurd hnr h
          · rw [hna, hnb, hnr] at hw
            simp [hw]
      · rw [hna, hnb] at hw
        simp [hw]
  constructor
  · simp only [simplify_conflict, hfa, hfr]
    rw [hcs]
    exact hmatch _ rfl
  · have hself := cancelSweep_self (na1 ++ na2) (nr1 ++ nr2)
    rw [hcs] at hself
    simp only [simplify_conflict, flattenAdds_no_conflict hnca,
      flattenRemoves_no_conflict hncr, List.append_nil, List.nil_append]
    rw [hself]
    exact hmatch _ rfl

/-- Depth-two nested conflict: the inner conflict at id `[11]` contains a
conflict reference to id `[12]`. -/
def exC5Inner2 : Conflict := { removes := [], adds := [⟨exValA⟩, ⟨exValB⟩] }

def exC5Inner1 : Conflict := { removes := [], adds := [⟨.conflict ⟨[12]⟩⟩] }

def exC5Outer : Conflict :=
  { removes := [⟨exValR⟩], adds := [⟨.conflict ⟨[11]⟩⟩, ⟨exValS⟩] }

/-- What the first simplification of `exC5Outer` stores: note the
surviving conflict part. -/
def exC5Stored : Conflict :=
  { removes := [⟨exValR⟩], adds := [⟨.conflict ⟨[12]⟩⟩, ⟨exValS⟩] }

/-- What simplifying `exC5Stored` stores: one more level expanded. -/
def exC5Result2 : Conflict :=
  { removes := [⟨exValR⟩], adds := [⟨exValA⟩, ⟨exValB⟩, ⟨exValS⟩] }

/-- A flat conflict for the amended-claim witness. -/
def exC5Flat : Conflict := { removes := [⟨exValR⟩], adds := [⟨exValA⟩, ⟨exValB⟩] }

/-- Content-addressed store fragment for the C5 counterexample. -/
def exC5Store : StoreWrapper :=
  { dummyStore with
    readConflict := fun id =>
      if id = ⟨[11]⟩ then .ok exC5Inner1
      else if id = ⟨[12]⟩ then .ok exC5Inner2
      else if id = ⟨[21]⟩ then .ok exC5Stored
      else .error .notFound
    writeConflict := fun c =>
      if c = exC5Stored then .ok ⟨[21]⟩
      else if c = exC5Result2 then .ok ⟨[22]⟩
      else if c = exC5Flat then .ok ⟨[23]⟩
      else .error .storeIo }

/-- Counterexample to C5 as stated: simplifying `exC5Outer` stores the
conflict at id `[21]`; simplifying that stored conflict expands the
remaining nested conflict and returns the different id `[22]`. -/
theorem simplify_not_idempotent_nested :
    simplify_conflict exC5Store exC5Outer = .ok (some (.conflict ⟨[21]⟩)) ∧
    exC5Store.readConflict ⟨[21]⟩ = .ok exC5Stored ∧
    simplify_conflict exC5Store exC5Stored = .ok (some (.conflict ⟨[22]⟩)) ∧
    simplify_conflict exC5Store exC5Stored ≠ .ok (some (.conflict ⟨[21]⟩)) := by
  decide

/-- Witness for the amended C5 at a flat concrete conflict. -/
theorem simplify_conflict_idempotent_no_nested_witness :
    simplify_conflict exC5Store exC5Flat = .ok (some (.conflict ⟨[23]⟩)) ∧
    simplify_conflict exC5Store { removes := [⟨exValR⟩], adds := [⟨exValA⟩, ⟨exValB⟩] } =
      .ok (some (.conflict ⟨[23]⟩)) :=
  simplify_conflict_idempotent_no_nested exC5Store exC5Flat
    [] [⟨exValA⟩, ⟨exValB⟩] [⟨exValR⟩] [] [⟨exValA⟩, ⟨exValB⟩] [⟨exValR⟩] ⟨[23]⟩
    (by decide) (by decide) (by decide) (by decide) (by decide)
    (Or.inl (by decide)) (by decide)

/-! ## Claim C6: diff symmetry

Reversing the tree arguments maps `Added ↔ Removed` and swaps the sides
of `Modified`, but the emission *order* around directory↔file
replacements differs (the walker emits `Removed(file)` before a new
directory's contents, and `Added(file)` after a removed directory's
contents), so the reverse diff is a permutation — not the pointwise
image — of the inverted forward diff. -/

/-- Invert one diff event. -/
def invertEntry (x : RepoPath × Diff TreeValue) : RepoPath × Diff TreeValue :=
  (x.1, x.2.invert)

/-- Swap the two sides of a paired-primitive triple. -/
def swapEntry (e : Nat × Option TreeValue × Option TreeValue) :
    Nat × Option TreeValue × Option TreeValue :=
  (e.1, e.2.2, e.2.1)

/-- The paired primitive is symmetric up to swapping sides. -/
theorem diffEntryLists_swap (l1 l2 : List (Nat × TreeValue)) :
    diffEntryLists l2 l1 = (diffEntryLists l1 l2).map swapEntry := by
  induction l1, l2 using diffEntryLists.induct with
  | case1 => simp [diffEntryLists]
  | case2 n1 v1 r1 ih =>
    rw [diffEntryLists, diffEntryLists]
    simp [swapEntry, ih]
  | case3 n2 v2 r2 ih =>
    rw [diffEntryLists, diffEntryLists]
    simp [swapEntry, ih]
  | case4 n1 v1 r1 n2 v2 r2 hlt ih =>
    rw [diffEntryLists, if_pos hlt]
    rw [diffEntryLists]
    rw [if_neg (by omega), if_pos hlt]
    simp [swapEntry, ih]
  | case5 n1 v1 r1 n2 v2 r2 hnlt hlt ih =>
    rw [diffEntryLists, if_pos hlt]
    conv_rhs => rw [diffEntryLists]
    rw [if_neg hnlt, if_pos hlt]
    simp [swapEntry, ih]
  | case6 n1 v1 r1 n2 v2 r2 hnlt hnlt2 hne ih =>
    have heq12 : n1 = n2 := by omega
    subst heq12
    rw [diffEntryLists, if_neg hnlt2, if_neg hnlt, if_pos (Ne.symm hne)]
    conv_rhs => rw [diffEntryLists]
    rw [if_neg hnlt, if_neg hnlt2, if_pos hne]
    simp [swapEntry, ih]
  | case7 n1 v1 r1 n2 v2 r2 hnlt hnlt2 heq ih =>
    have heq12 : n1 = n2 := by omega
    subst heq12
    have hv : v1 = v2 := by simpa using heq
    subst hv
    rw [diffEntryLists, if_neg hnlt2, if_neg hnlt, if_neg (by simp)]
    conv_rhs => rw [diffEntryLists]
    rw [if_neg hnlt, if_neg hnlt2, if_neg (by simp)]
    exact ih

/-- Reversing the sides of one segment: given a side-reversing sub-walker
(up to permutation of the inverted output), the segment for the swapped
entry succeeds and is a permutation of the inverted forward segment. -/
theorem diffSegment_reverse
    {recur : RepoPath → Tree → Tree → Res (List (RepoPath × Diff TreeValue))}
    {s : StoreWrapper} {m : Matcher} {dir : RepoPath} {t1 t2 : Tree}
    (hrec : ∀ p u1 u2 so, recur p u1 u2 = .ok so →
      ∃ so2, recur p u2 u1 = .ok so2 ∧ so2.Perm (so.map invertEntry))
    {name : Nat} {before after : Option TreeValue}
    {oe : List (RepoPath × Diff TreeValue)}
    (hseg : diffSegment recur s m dir t1 t2 (name, before, after) = .ok oe) :
    ∃ oe2, diffSegment recur s m dir t2 t1 (name, after, before) = .ok oe2 ∧
      oe2.Perm (oe.map invertEntry) := by
  simp only [diffSegment] at hseg ⊢
  obtain ⟨sub, hsd, hk⟩ := Res.bind_eq_ok hseg
  by_cases hc : (TreeValue.optIsTreeRef before || TreeValue.optIsTreeRef after) = true
  · rw [if_pos hc] at hsd
    obtain ⟨u1, h1, hrest⟩ := Res.bind_eq_ok hsd
    obtain ⟨u2, h2, hrecok⟩ := Res.bind_eq_ok hrest
    obtain ⟨sub2, hrec2, hperm⟩ := hrec _ _ _ _ hrecok
    have hc2 : (TreeValue.optIsTreeRef after || TreeValue.optIsTreeRef before) = true := by
      rw [Bool.or_comm] at hc
      exact hc
    rw [if_pos hc2, h2, Res.bind_ok, h1, Res.bind_ok, hrec2, Res.bind_ok]
    -- now compare the two emission arms
    cases hm : m (dir.join name) with
    | false =>
      simp only [hm, Bool.false_eq_true, if_false] at hk ⊢
      cases hk
      exact ⟨sub2, rfl, hperm⟩
    | true =>
      simp only [hm, if_true] at hk ⊢
      cases hB : TreeValue.optIsTreeRef before <;>
        cases hA : TreeValue.optIsTreeRef after <;>
          simp only [hB, hA, Bool.not_false, Bool.not_true, Bool.true_and, Bool.false_and,
            Bool.and_true, Bool.and_false, Bool.false_eq_true, if_false, if_true] at hk ⊢
      · -- neither side is a tree: contradicts hc
        rw [hB, hA] at hc
        simp at hc
      · -- after is a tree, before is not
        rcases before with _ | fb
        · cases hk
          exact ⟨sub2, rfl, hperm⟩
        · cases hk
          refine ⟨sub2 ++ [(dir.join name, Diff.added fb)], rfl, ?_⟩
          have h1p : (sub2 ++ [(dir.join name, Diff.added fb)]).Perm
              ((dir.join name, Diff.added fb) :: sub2) := List.perm_append_singleton _ _
          refine h1p.trans ?_
          simp only [List.map_cons, invertEntry, Diff.invert]
          exact List.Perm.cons _ hperm
      · -- before is a tree, after is not
        rcases after with _ | fa
        · cases hk
          exact ⟨sub2, rfl, hperm⟩
        · cases hk
          refine ⟨(dir.join name, Diff.removed fa) :: sub2, rfl, ?_⟩
          simp only [List.map_append, List.map_cons, List.map_nil, invertEntry, Diff.invert]
          refine List.Perm.trans ?_ (List.perm_append_singleton _ _).symm
          exact List.Perm.cons _ hperm
      · -- both sides are trees
        cases hk
        exact ⟨sub2, rfl, hperm⟩
  · rw [if_neg hc] at hsd
    cases hsd
    have hc2 : ¬ (TreeValue.optIsTreeRef after || TreeValue.optIsTreeRef before) = true := by
      rw [Bool.or_comm] at hc
      exact hc
    rw [if_neg hc2, Res.bind_ok]
    cases hm : m (dir.join name) with
    | false =>
      simp only [hm, Bool.false_eq_true, if_false] at hk ⊢
      cases hk
      exact ⟨[], rfl, by simp⟩
    | true =>
      simp only [hm, if_true] at hk ⊢
      have hB : TreeValue.optIsTreeRef before = false := by
        cases hbv : TreeValue.optIsTreeRef before
        · rfl
        · exact absurd (by rw [hbv]; simp) hc
      have hA : TreeValue.optIsTreeRef after = false := by
        cases hav : TreeValue.optIsTreeRef after
        · rfl
        · exact absurd (by rw [hav]; simp) hc
      simp only [hB, hA, Bool.not_false, Bool.true_and, Bool.false_and, Bool.and_false,
        Bool.and_true, Bool.false_eq_true, if_false, if_true] at hk ⊢
      rcases before with _ | fb <;> rcases after with _ | fa
      · simp at hk
      · cases hk
        exact ⟨[(dir.join name, Diff.removed fa)], rfl, by simp [invertEntry, Diff.invert]⟩
      · cases hk
        exact ⟨[(dir.join name, Diff.added fb)], rfl, by simp [invertEntry, Diff.invert]⟩
      · cases hk
        exact ⟨[(dir.join name, Diff.modified fa fb)], rfl, by simp [invertEntry, Diff.invert]⟩

/-- Reversing the sides of a whole entry run, given a side-reversing
sub-walker. -/
theorem resConcatMap_segments_reverse
    {recur : RepoPath → Tree → Tree → Res (List (RepoPath × Diff TreeValue))}
    {s : StoreWrapper} {m : Matcher} {dir : RepoPath} {t1 t2 : Tree}
    (hrec : ∀ p u1 u2 so, recur p u1 u2 = .ok so →
      ∃ so2, recur p u2 u1 = .ok so2 ∧ so2.Perm (so.map invertEntry)) :
    ∀ (entries : List (Nat × Option TreeValue × Option TreeValue))
      (out : List (RepoPath × Diff TreeValue)),
      resConcatMap (diffSegment recur s m dir t1 t2) entries = .ok out →
      ∃ out2,
        resConcatMap (diffSegment recur s m dir t2 t1) (entries.map swapEntry) = .ok out2 ∧
        out2.Perm (out.map invertEntry) := by
  intro entries
  induction entries with
  | nil =>
    intro out h
    simp only [resConcatMap] at h
    cases h
    exact ⟨[], rfl, by simp⟩
  | cons e rest ihe =>
    intro out h
    simp only [resConcatMap, List.map_cons] at h ⊢
    obtain ⟨oe, hoe, htail⟩ := Res.bind_eq_ok h
    obtain ⟨otail, hot, hcat⟩ := Res.bind_eq_ok htail
    cases hcat
    obtain ⟨name, b, a⟩ := e
    obtain ⟨oe2, hoe2, hpe⟩ := diffSegment_reverse hrec hoe
    obtain ⟨ot2, hot2, hpt⟩ := ihe _ hot
    refine ⟨oe2 ++ ot2, ?_, ?_⟩
    · simp only [swapEntry]
      rw [hoe2, Res.bind_ok, hot2, Res.bind_ok]
    · simpa [List.map_append] using hpe.append hpt

/-- Reversing the tree arguments of the diff walker: the reverse walk
succeeds and is a permutation of the inverted forward walk. -/
theorem treeDiffAux_reverse (s : StoreWrapper) (m : Matcher) :
    ∀ (fuel : Nat) (p : RepoPath) (t1 t2 : Tree) (out : List (RepoPath × Diff TreeValue)),
      treeDiffAux s m fuel p t1 t2 = .ok out →
      ∃ out2, treeDiffAux s m fuel p t2 t1 = .ok out2 ∧
        out2.Perm (out.map invertEntry) := by
  intro fuel
  induction fuel with
  | zero =>
    intro p t1 t2 out h
    simp [treeDiffAux] at h
  | succ k ih =>
    intro p t1 t2 out hrun
    simp only [treeDiffAux] at hrun ⊢
    rw [diffEntryLists_swap t1.data.entries t2.data.entries]
    exact resConcatMap_segments_reverse (fun p u1 u2 so h => ih p u1 u2 so h) _ _ hrun

/-- Claim C6 (amended): reversing the tree arguments of `Tree::diff`
yields a permutation of the forward diff with `Added ↔ Removed` and
`Modified` sides swapped — pointwise sequence equality fails because
directory↔file replacements emit in opposite orders — and the multiset of
yielded paths is unchanged. -/
theorem diff_reverse_perm_invert (s : StoreWrapper) (m : Matcher) (fuel : Nat)
    (t1 t2 : Tree) (out : List (RepoPath × Diff TreeValue))
    (hrun : Tree.diff s t1 t2 m fuel = .ok out) :
    ∃ out2, Tree.diff s t2 t1 m fuel = .ok out2 ∧
      out2.Perm (out.map invertEntry) ∧
      (out2.map Prod.fst).Perm (out.map Prod.fst) := by
  simp only [Tree.diff, recursive_tree_diff] at hrun ⊢
  obtain ⟨out2, hrev, hperm⟩ := treeDiffAux_reverse s m fuel RepoPath.root t1 t2 out hrun
  refine ⟨out2, hrev, hperm, ?_⟩
  have := hperm.map Prod.fst
  simpa [Function.comp, invertEntry] using this

/-- Counterexample to C6 as stated (pointwise reading): in the
directory-replaced-by-file scenario the reverse diff is not the pointwise
inversion of the forward diff — the two events appear in the opposite
order. -/
theorem diff_reverse_not_pointwise :
    Tree.diff exDiffStore exDirTree exFileTree everythingMatcher 2 =
      .ok [(⟨[0, 1]⟩, .removed (.normal ⟨[11]⟩ false)),
           (⟨[0]⟩, .added (.normal ⟨[12]⟩ false))] ∧
    Tree.diff exDiffStore exFileTree exDirTree everythingMatcher 2 =
      .ok [(⟨[0]⟩, .removed (.normal ⟨[12]⟩ false)),
           (⟨[0, 1]⟩, .added (.normal ⟨[11]⟩ false))] ∧
    [((⟨[0]⟩ : RepoPath), Diff.removed (TreeValue.normal ⟨[12]⟩ false)),
     (⟨[0, 1]⟩, Diff.added (.normal ⟨[11]⟩ false))] ≠
      List.map invertEntry
        [(⟨[0, 1]⟩, Diff.removed (TreeValue.normal ⟨[11]⟩ false)),
         (⟨[0]⟩, Diff.added (.normal ⟨[12]⟩ false))] := by
  refine ⟨?_, ?_, by decide⟩ <;>
    simp [Tree.diff, recursive_tree_diff, treeDiffAux, resConcatMap, diffSegment,
      diffEntryLists, exDirTree, exFileTree, exDiffStore, dummyStore, exSubTreeData,
      Tree.knownSubTree, StoreWrapper.getTree, Tree.null, StoreTree.empty,
      RepoPath.root, RepoPath.join, everythingMatcher, TreeValue.optIsTreeRef]

/-- Witness for the amended C6 at the concrete replacement scenario. -/
theorem diff_reverse_perm_invert_witness :
    ∃ out2, Tree.diff exDiffStore exFileTree exDirTree everythingMatcher 2 = .ok out2 ∧
      out2.Perm ((
        [(⟨[0, 1]⟩, Diff.removed (TreeValue.normal ⟨[11]⟩ false)),
         (⟨[0]⟩, Diff.added (TreeValue.normal ⟨[12]⟩ false))] :
          List (RepoPath × Diff TreeValue)).map invertEntry) ∧
      (out2.map Prod.fst).Perm
        (([(⟨[0, 1]⟩, Diff.removed (TreeValue.normal ⟨[11]⟩ false)),
           (⟨[0]⟩, Diff.added (TreeValue.normal ⟨[12]⟩ false))] :
            List (RepoPath × Diff TreeValue)).map Prod.fst) :=
  diff_reverse_perm_invert exDiffStore everythingMatcher 2 exDirTree exFileTree _
    (by simp [Tree.diff, recursive_tree_diff, treeDiffAux, resConcatMap, diffSegment,
      diffEntryLists, exDirTree, exFileTree, exDiffStore, dummyStore, exSubTreeData,
      Tree.knownSubTree, StoreWrapper.getTree, Tree.null, StoreTree.empty,
      RepoPath.root, RepoPath.join, everythingMatcher, TreeValue.optIsTreeRef])

/-! ## Claim C4: ordering around directory↔file replacements -/

/-- Tree-ness of a present optional value. -/
theorem optIsTreeRef_some (v : TreeValue) :
    TreeValue.optIsTreeRef (some v) = v.isTreeRef := by
  cases v <;> rfl

/-- Two joined paths that are both prefixes of the same path share their
final component. -/
theorem join_prefix_inj {dir : RepoPath} {n1 n2 : Nat} {q : RepoPath}
    (h1 : (dir.join n1).components <+: q.components)
    (h2 : (dir.join n2).components <+: q.components) : n1 = n2 := by
  have hlen : (dir.join n1).components.length = (dir.join n2).components.length := by
    simp [RepoPath.join]
  rcases List.prefix_or_prefix_of_prefix h1 h2 with h | h
  · have heq := h.eq_of_length hlen
    simp only [RepoPath.join] at heq
    have := List.append_cancel_left heq
    simpa using this
  · have heq := h.eq_of_length hlen.symm
    simp only [RepoPath.join] at heq
    have := List.append_cancel_left heq
    simpa using this.symm

/-- Every event of a segment has the entry's path as a prefix. -/
theorem diffSegment_paths {s : StoreWrapper} {m : Matcher} {fuel : Nat} {dir : RepoPath}
    {t1 t2 : Tree} {name : Nat} {b a : Option TreeValue}
    {oe : List (RepoPath × Diff TreeValue)}
    (hseg : diffSegment (fun d u1 u2 => treeDiffAux s m fuel d u1 u2) s m dir t1 t2
      (name, b, a) = .ok oe) :
    ∀ q d2, (q, d2) ∈ oe → (dir.join name).components <+: q.components := by
  intro q d2 hq
  rcases diffSegment_mem hseg hq with h | ⟨u1, u2, so, hso, hin⟩
  · rw [h]
  · obtain ⟨rest, _, hcomp⟩ := treeDiffAux_prefix s m fuel (dir.join name) u1 u2 so hso q d2 hin
    exact ⟨rest, hcomp.symm⟩

/-- Events of a run over entries that avoid the name `n` never lie at or
under `dir.join n`. -/
theorem diffRun_not_under {s : StoreWrapper} {m : Matcher} {fuel : Nat} {dir : RepoPath}
    {t1 t2 : Tree} {n : Nat}
    {es : List (Nat × Option TreeValue × Option TreeValue)}
    {o : List (RepoPath × Diff TreeValue)}
    (hnames : ∀ e ∈ es, e.1 ≠ n)
    (hrun : resConcatMap (diffSegment (fun d u1 u2 => treeDiffAux s m fuel d u1 u2)
      s m dir t1 t2) es = .ok o) :
    ∀ q d2, (q, d2) ∈ o → ¬ (dir.join n).components <+: q.components := by
  intro q d2 hq hpre
  obtain ⟨e, he, oe, hoe, hmem⟩ := resConcatMap_ok_mem hrun hq
  obtain ⟨en, eb, ea⟩ := e
  have hp := diffSegment_paths hoe q d2 hmem
  exact hnames _ he (join_prefix_inj hp hpre)

/-- Shape of the segment for a directory replaced by a non-tree value:
the sub-walk's removals come first, the `Added` of the file last. -/
theorem diffSegment_dir_to_file {s : StoreWrapper} {fuel : Nat} {dir : RepoPath}
    {t1 t2 : Tree} {n : Nat} {id : TreeId} {v : TreeValue}
    {oe : List (RepoPath × Diff TreeValue)}
    (hv : v.isTreeRef = false)
    (hseg : diffSegment (fun d u1 u2 => treeDiffAux s everythingMatcher fuel d u1 u2)
      s everythingMatcher dir t1 t2 (n, some (.tree id), some v) = .ok oe) :
    ∃ so, oe = so ++ [(dir.join n, Diff.added v)] ∧
      (∀ q d2, (q, d2) ∈ so →
        (dir.join n).components <+: q.components ∧ q ≠ dir.join n) := by
  have hseg2 := hseg
  have htrue : TreeValue.optIsTreeRef (some (TreeValue.tree id)) = true := rfl
  have hfalse : TreeValue.optIsTreeRef (some v) = false := by
    rw [optIsTreeRef_some, hv]
  simp only [diffSegment, htrue, hfalse, everythingMatcher,
    Bool.true_or, Bool.or_false, Bool.not_true, Bool.not_false, Bool.false_and,
    Bool.true_and, Bool.and_false, Bool.and_true, Bool.false_eq_true, if_false,
    if_true] at hseg2
  obtain ⟨sub, hsd, hk⟩ := Res.bind_eq_ok hseg2
  obtain ⟨u1, h1, hrest⟩ := Res.bind_eq_ok hsd
  obtain ⟨u2, h2, hrec⟩ := Res.bind_eq_ok hrest
  refine ⟨sub, by cases hk; rfl, ?_⟩
  intro q d2 hq
  obtain ⟨rest, hne, hcomp⟩ :=
    treeDiffAux_prefix s everythingMatcher fuel (dir.join n) u1 u2 sub hrec q d2 hq
  refine ⟨⟨rest, hcomp.symm⟩, ?_⟩
  intro he
  have hlen : q.components.length = (dir.join n).components.length + rest.length := by
    rw [hcomp]; simp
  rw [he] at hlen
  have hzero : rest.length = 0 := by omega
  exact hne (List.eq_nil_of_length_eq_zero hzero)

/-- Shape of the segment for a non-tree value replaced by a directory:
the `Removed` of the file comes first, the sub-walk's additions after. -/
theorem diffSegment_file_to_dir {s : StoreWrapper} {fuel : Nat} {dir : RepoPath}
    {t1 t2 : Tree} {n : Nat} {id : TreeId} {v : TreeValue}
    {oe : List (RepoPath × Diff TreeValue)}
    (hv : v.isTreeRef = false)
    (hseg : diffSegment (fun d u1 u2 => treeDiffAux s everythingMatcher fuel d u1 u2)
      s everythingMatcher dir t1 t2 (n, some v, some (.tree id)) = .ok oe) :
    ∃ so, oe = (dir.join n, Diff.removed v) :: so ∧
      (∀ q d2, (q, d2) ∈ so →
        (dir.join n).components <+: q.components ∧ q ≠ dir.join n) := by
  have hseg2 := hseg
  have htrue : TreeValue.optIsTreeRef (some (TreeValue.tree id)) = true := rfl
  have hfalse : TreeValue.optIsTreeRef (some v) = false := by
    rw [optIsTreeRef_some, hv]
  simp only [diffSegment, htrue, hfalse, everythingMatcher,
    Bool.true_or, Bool.or_true, Bool.not_true, Bool.not_false, Bool.false_and,
    Bool.true_and, Bool.and_false, Bool.and_true, Bool.false_eq_true, if_false,
    if_true] at hseg2
  obtain ⟨sub, hsd, hk⟩ := Res.bind_eq_ok hseg2
  obtain ⟨u1, h1, hrest⟩ := Res.bind_eq_ok hsd
  obtain ⟨u2, h2, hrec⟩ := Res.bind_eq_ok hrest
  refine ⟨sub, by cases hk; rfl, ?_⟩
  intro q d2 hq
  obtain ⟨rest, hne, hcomp⟩ :=
    treeDiffAux_prefix s everythingMatcher fuel (dir.join n) u1 u2 sub hrec q d2 hq
  refine ⟨⟨rest, hcomp.symm⟩, ?_⟩
  intro he
  have hlen : q.components.length = (dir.join n).components.length + rest.length := by
    rw [hcomp]; simp
  rw [he] at hlen
  have hzero : rest.length = 0 := by omega
  exact hne (List.eq_nil_of_length_eq_zero hzero)

/-- Claim C4: ordering around directory↔file replacements in the output
of the recursive diff walker. When the entry `n` of `t1` is a directory
and the entry `n` of `t2` is a non-tree value, the output splits as
`pre ++ mid ++ [(p, Added v)] ++ post` where `p = dir.join n`, every
event of `mid` lies strictly under `p`, and no event of `pre` or `post`
lies at or under `p` — so every event under `p` (all of them `Removed`s
of the vanished sub-tree) precedes the `Added` at `p`. Dually, when a
non-tree value is replaced by a directory, the `Removed` at `p` precedes
every event under `p`. -/
theorem diff_replacement_ordering (s : StoreWrapper) (fuel : Nat) (dir : RepoPath)
    (t1 t2 : Tree) (n : Nat) (o : List (RepoPath × Diff TreeValue))
    (h1 : EntriesSorted t1.data.entries) (h2 : EntriesSorted t2.data.entries)
    (hrun : treeDiffAux s everythingMatcher (fuel + 1) dir t1 t2 = .ok o) :
    (∀ id v, t1.value n = some (.tree id) → t2.value n = some v →
      v.isTreeRef = false →
      ∃ pre mid post,
        o = pre ++ mid ++ [(dir.join n, Diff.added v)] ++ post ∧
        (∀ q d2, (q, d2) ∈ mid →
          (dir.join n).components <+: q.components ∧ q ≠ dir.join n) ∧
        (∀ q d2, (q, d2) ∈ pre ++ post →
          ¬ (dir.join n).components <+: q.components)) ∧
    (∀ id v, t1.value n = some v → t2.value n = some (.tree id) →
      v.isTreeRef = false →
      ∃ pre mid post,
        o = pre ++ [(dir.join n, Diff.removed v)] ++ mid ++ post ∧
        (∀ q d2, (q, d2) ∈ mid →
          (dir.join n).components <+: q.components ∧ q ≠ dir.join n) ∧
        (∀ q d2, (q, d2) ∈ pre ++ post →
          ¬ (dir.join n).components <+: q.components)) := by
  simp only [treeDiffAux] at hrun
  constructor
  · intro id v hv1 hv2 hv
    have hb : lookupValue t1.data.entries n = some (TreeValue.tree id) := hv1
    have ha : lookupValue t2.data.entries n = some v := hv2
    have hne : lookupValue t1.data.entries n ≠ lookupValue t2.data.entries n := by
      rw [hb, ha]
      intro he
      have := Option.some.inj he
      rw [this.symm] at hv
      simp [TreeValue.isTreeRef] at hv
    have hmem := diffEntryLists_complete h1 h2 hne
    rw [hb, ha] at hmem
    obtain ⟨es1, es2, hsplit⟩ := List.append_of_mem hmem
    have hsort := diffEntryLists_sorted h1 h2
    rw [hsplit] at hsort
    obtain ⟨hp1, hp2, hcross⟩ := List.pairwise_append.mp hsort
    have hn1 : ∀ e ∈ es1, e.1 ≠ n := by
      intro e he
      exact Nat.ne_of_lt (hcross e he _ (List.mem_cons_self _ _))
    have hn2 : ∀ e ∈ es2, e.1 ≠ n := by
      intro e he
      exact Nat.ne_of_gt ((List.pairwise_cons.mp hp2).1 e he)
    rw [hsplit, resConcatMap_append] at hrun
    obtain ⟨o1, hrun1, hrest⟩ := Res.bind_eq_ok hrun
    obtain ⟨o2, hrun2, hk⟩ := Res.bind_eq_ok hrest
    simp only [resConcatMap] at hrun2
    obtain ⟨oe, hseg, hrest2⟩ := Res.bind_eq_ok hrun2
    obtain ⟨orest, hrun3, hk2⟩ := Res.bind_eq_ok hrest2
    obtain ⟨so, hoe, hsub⟩ := diffSegment_dir_to_file hv hseg
    refine ⟨o1, so, orest, ?_, hsub, ?_⟩
    · cases hk; cases hk2
      rw [hoe]
      simp [List.append_assoc]
    · intro q d2 hq
      rcases List.mem_append.mp hq with hq1 | hq2
      · exact diffRun_not_under hn1 hrun1 q d2 hq1
      · exact diffRun_not_under hn2 hrun3 q d2 hq2
  · intro id v hv1 hv2 hv
    have hb : lookupValue t1.data.entries n = some v := hv1
    have ha : lookupValue t2.data.entries n = some (TreeValue.tree id) := hv2
    have hne : lookupValue t1.data.entries n ≠ lookupValue t2.data.entries n := by
      rw [hb, ha]
      intro he
      have := Option.some.inj he
      rw [this] at hv
      simp [TreeValue.isTreeRef] at hv
    have hmem := diffEntryLists_complete h1 h2 hne
    rw [hb, ha] at hmem
    obtain ⟨es1, es2, hsplit⟩ := List.append_of_mem hmem
    have hsort := diffEntryLists_sorted h1 h2
    rw [hsplit] at hsort
    obtain ⟨hp1, hp2, hcross⟩ := List.pairwise_append.mp hsort
    have hn1 : ∀ e ∈ es1, e.1 ≠ n := by
      intro e he
      exact Nat.ne_of_lt (hcross e he _ (List.mem_cons_self _ _))
    have hn2 : ∀ e ∈ es2, e.1 ≠ n := by
      intro e he
      exact Nat.ne_of_gt ((List.pairwise_cons.mp hp2).1 e he)
    rw [hsplit, resConcatMap_append] at hrun
    obtain ⟨o1, hrun1, hrest⟩ := Res.bind_eq_ok hrun
    obtain ⟨o2, hrun2, hk⟩ := Res.bind_eq_ok hrest
    simp only [resConcatMap] at hrun2
    obtain ⟨oe, hseg, hrest2⟩ := Res.bind_eq_ok hrun2
    obtain ⟨orest, hrun3, hk2⟩ := Res.bind_eq_ok hrest2
    obtain ⟨so, hoe, hsub⟩ := diffSegment_file_to_dir hv hseg
    refine ⟨o1, so, orest, ?_, hsub, ?_⟩
    · cases hk; cases hk2
      rw [hoe]
      simp [List.append_assoc]
    · intro q d2 hq
      rcases List.mem_append.mp hq with hq1 | hq2
      · exact diffRun_not_under hn1 hrun1 q d2 hq1
      · exact diffRun_not_under hn2 hrun3 q d2 hq2

/-- Witness for C4 at the concrete directory-replaced-by-file scenario:
the sub-tree removal at `0/1` precedes the `Added` at `0`. -/
theorem diff_replacement_ordering_witness :
    EntriesSorted exDirTree.data.entries ∧ EntriesSorted exFileTree.data.entries ∧
    (∃ pre mid post,
      [((⟨[0, 1]⟩ : RepoPath), Diff.removed (TreeValue.normal ⟨[11]⟩ false)),
       (⟨[0]⟩, Diff.added (TreeValue.normal ⟨[12]⟩ false))] =
        pre ++ mid ++
          [(RepoPath.root.join 0, Diff.added (TreeValue.normal ⟨[12]⟩ false))] ++ post ∧
      (∀ q d2, (q, d2) ∈ mid →
        (RepoPath.root.join 0).components <+: q.components ∧
          q ≠ RepoPath.root.join 0) ∧
      (∀ q d2, (q, d2) ∈ pre ++ post →
        ¬ (RepoPath.root.join 0).components <+: q.components)) := by
  refine ⟨by simp [exDirTree, EntriesSorted], by simp [exFileTree, EntriesSorted], ?_⟩
  have ho : treeDiffAux exDiffStore everythingMatcher (1 + 1) RepoPath.root
      exDirTree exFileTree
      = .ok [(⟨[0, 1]⟩, .removed (.normal ⟨[11]⟩ false)),
             (⟨[0]⟩, .added (.normal ⟨[12]⟩ false))] := by
    simp [treeDiffAux, resConcatMap, diffSegment, diffEntryLists, exDirTree, exFileTree,
      exDiffStore, dummyStore, exSubTreeData, Tree.knownSubTree, StoreWrapper.getTree,
      Tree.null, StoreTree.empty, RepoPath.root, RepoPath.join, everythingMatcher,
      TreeValue.optIsTreeRef]
  exact (diff_replacement_ordering exDiffStore 1 RepoPath.root exDirTree exFileTree 0 _
    (by simp [exDirTree, EntriesSorted]) (by simp [exFileTree, EntriesSorted]) ho).1
    ⟨[7]⟩ (TreeValue.normal ⟨[12]⟩ false) rfl rfl rfl

end JJ
